import Mathlib

/-!
Verification of the ArbitrageV core against its specification.

The definitions below are a shallow embedding of the final revision of the
market-graph engine (`src/graph.ts`, second version in the file: the
tax-aware `ArbitrageGraph` with `edgeIndex` and the highest-reserve cache),
of the Newton-Raphson profit solver (`calculateMaxProfit` /
`createProfitFunctions` in the same file), and of the batch scheduler
(`OpportunityManager.processOpportunities` in `src/unnamed/part_002`).

Modelling conventions:
* chain addresses (tokens, pools) are `String`s;
* `bigint` reserves are `ℕ`; JavaScript `number` arithmetic is modelled
  exactly over `ℚ` (the JavaScript values of interest are IEEE doubles, the
  claims settled here are structural and are stated over the exact rational
  semantics of the same formulas); the JavaScript value `-Infinity`
  produced by `calculateProfit` is modelled as `none : Option ℚ`;
* JavaScript `Map`s are association lists with `Map.set` semantics
  (replace in place if the key is present, append otherwise);
* the TypeScript `edgeIndex` maps the key `fromToken-pairAddress` to the
  same mutable `Edge` object that sits in the adjacency list `graph`; both
  are updated in lock-step, so `edgeIndex.get(key)` is observationally the
  first adjacency-list entry of `fromToken` with that pool address, and the
  pure model performs the lookup directly on the adjacency list.
-/

namespace ArbitrageV

/-- Swap direction through a pair (`'token0ToToken1' | 'token1ToToken0'`). -/
inductive Direction where
  | token0ToToken1
  | token1ToToken0
deriving DecidableEq

/-- `PairInfo` of the final `graph.ts` revision: two tokens, reserves, base
fee (bps) and the fee-on-transfer tax parameters. -/
structure PairInfo where
  pairAddress : String
  token0 : String
  token1 : String
  reserve0 : ℕ
  reserve1 : ℕ
  fee : ℕ
  buyFeeBps : ℕ
  sellFeeBps : ℕ
  isToken0 : Bool
deriving DecidableEq

/-- A directed edge of the market graph. The TypeScript field `to` is a
reserved word in Lean and is called `toTok` here. -/
structure Edge where
  toTok : String
  pairAddress : String
  direction : Direction
  fee : ℕ
  reserveIn : ℕ
  reserveOut : ℕ
deriving DecidableEq

/-- Entry of the `tokenToHighestReservePair` cache. -/
structure BestPair where
  pairAddress : String
  reserves : ℕ
  fee : ℕ
deriving DecidableEq

/-- The mutable state of the TypeScript `ArbitrageGraph` class. -/
structure ArbitrageGraph where
  graph : List (String × List Edge)
  tokens : List String
  pairs : List (String × PairInfo)
  tokenToHighestReservePair : List (String × BestPair)
deriving DecidableEq

/-- `Map.get`: first binding of the key, if any. -/
def alookup {α : Type} (l : List (String × α)) (k : String) : Option α :=
  (l.find? (fun kv => decide (kv.1 = k))).map (fun kv => kv.2)

/-- `Map.set`: replace the binding in place if the key is present,
append a new binding otherwise. -/
def aset {α : Type} (l : List (String × α)) (k : String) (v : α) : List (String × α) :=
  match l with
  | [] => [(k, v)]
  | kv :: rest => if kv.1 = k then (k, v) :: rest else kv :: aset rest k v

/-- `Set.add` on the token set (JavaScript sets are insertion ordered). -/
def addToken (l : List String) (t : String) : List String :=
  if t ∈ l then l else l ++ [t]

/-- `edgeIndex.get(createEdgeKey(fromToken, pairAddress))`, realised as the
lookup of the (unique) adjacency-list edge with that pool address. -/
def findEdge (es : List Edge) (pairAddress : String) : Option Edge :=
  es.find? (fun e => decide (e.pairAddress = pairAddress))

/-- In-place mutation of the indexed edge object: the first edge with the
given pool address gets its `fee`, `reserveIn`, `reserveOut` overwritten. -/
def updateEdgeFields (es : List Edge) (pairAddress : String) (fee rIn rOut : ℕ) : List Edge :=
  match es with
  | [] => []
  | e :: rest =>
    if e.pairAddress = pairAddress then
      { e with fee := fee, reserveIn := rIn, reserveOut := rOut } :: rest
    else e :: updateEdgeFields rest pairAddress fee rIn rOut

/-- `updateHighestReserve` closure in `updateGraphEdges` (graph.ts 513-526):
record the pool as the token's best pool if there is no record yet or this
reserve strictly exceeds the recorded one. -/
def updateHighestReserve (m : List (String × BestPair)) (pairAddress : String) (pairFee : ℕ)
    (token : String) (reserve : ℕ) : List (String × BestPair) :=
  match alookup m token with
  | none => aset m token ⟨pairAddress, reserve, pairFee⟩
  | some currentBest =>
    if currentBest.reserves < reserve then aset m token ⟨pairAddress, reserve, pairFee⟩ else m

/-- `calculateEffectiveFee` (graph.ts 529-543): base fee plus the sell-side
tax when the input token of the direction is the taxed token, the buy-side
tax otherwise. -/
def calculateEffectiveFee (direction : Direction) (pair : PairInfo) : ℕ :=
  let isToken0Taxed := pair.isToken0
  let isSellingTaxedToken :=
    (isToken0Taxed && decide (direction = Direction.token0ToToken1)) ||
    (!isToken0Taxed && decide (direction = Direction.token1ToToken0))
  if isSellingTaxedToken then pair.fee + pair.sellFeeBps else pair.fee + pair.buyFeeBps

/-- One directional half of `updateGraphEdges`: update the indexed edge in
place if it exists, otherwise push a fresh edge and index it. -/
def updateDirEdge (g : ArbitrageGraph) (fromToken toToken : String) (direction : Direction)
    (pair : PairInfo) (rIn rOut : ℕ) : ArbitrageGraph :=
  let effFee := calculateEffectiveFee direction pair
  let es := (alookup g.graph fromToken).getD []
  match findEdge es pair.pairAddress with
  | some _ =>
    { g with graph := aset g.graph fromToken (updateEdgeFields es pair.pairAddress effFee rIn rOut) }
  | none =>
    let newEdge : Edge :=
      ⟨toToken, pair.pairAddress, direction, effFee, rIn, rOut⟩
    { g with graph := aset g.graph fromToken (es ++ [newEdge]) }

/-- `updateGraphEdges` (graph.ts 509-596): no-op when either reserve is
zero, otherwise refresh the highest-reserve cache for both tokens and
rebuild or in-place update the two directional edges. -/
def updateGraphEdges (g : ArbitrageGraph) (pair : PairInfo) : ArbitrageGraph :=
  if pair.reserve0 = 0 ∨ pair.reserve1 = 0 then g
  else
    let m1 := updateHighestReserve g.tokenToHighestReservePair pair.pairAddress pair.fee
      pair.token0 pair.reserve0
    let m2 := updateHighestReserve m1 pair.pairAddress pair.fee pair.token1 pair.reserve1
    let g1 := { g with tokenToHighestReservePair := m2 }
    let g2 := updateDirEdge g1 pair.token0 pair.token1 Direction.token0ToToken1 pair
      pair.reserve0 pair.reserve1
    updateDirEdge g2 pair.token1 pair.token0 Direction.token1ToToken0 pair
      pair.reserve1 pair.reserve0

/-- `addPair` (graph.ts 498-507): reject zero-reserve pools, otherwise
register both tokens, store the pool record and (re)build its edges. -/
def addPair (g : ArbitrageGraph) (pair : PairInfo) : ArbitrageGraph :=
  if pair.reserve0 = 0 ∨ pair.reserve1 = 0 then g
  else
    let g1 := { g with
      tokens := addToken (addToken g.tokens pair.token0) pair.token1,
      pairs := aset g.pairs pair.pairAddress pair }
    updateGraphEdges g1 pair

/-- One element of the argument of `updatePairReservesBatch`. -/
structure ReserveUpdate where
  pairAddress : String
  reserve0 : ℕ
  reserve1 : ℕ
deriving DecidableEq

/-- One reserve write of the first phase of `updatePairReservesBatch`
(graph.ts 607-622): overwrite the reserves of a known pool in place and
record the pool in the touched set (`updatedPairs`, a reference set, hence
one entry per pool in first-touch order). Unknown pools are skipped. -/
def reserveWriteStep (acc : List (String × PairInfo) × List String) (u : ReserveUpdate) :
    List (String × PairInfo) × List String :=
  match alookup acc.1 u.pairAddress with
  | none => acc
  | some pair =>
    (aset acc.1 u.pairAddress { pair with reserve0 := u.reserve0, reserve1 := u.reserve1 },
     if u.pairAddress ∈ acc.2 then acc.2 else acc.2 ++ [u.pairAddress])

/-- First phase of `updatePairReservesBatch`: all reserve writes in batch
order. -/
def applyReserveWrites (pairs : List (String × PairInfo)) (updates : List ReserveUpdate) :
    List (String × PairInfo) × List String :=
  updates.foldl reserveWriteStep (pairs, [])

/-- Second phase of `updatePairReservesBatch` (graph.ts 624-627): rebuild
the edges of one touched pool from its final (post-write) record. -/
def batchEdgeStep (gAcc : ArbitrageGraph) (addr : String) : ArbitrageGraph :=
  match alookup gAcc.pairs addr with
  | none => gAcc
  | some pair => updateGraphEdges gAcc pair

/-- `updatePairReservesBatch` (graph.ts 604-628): apply all reserve writes,
then rebuild the edges once per touched pool using its final reserves. -/
def updatePairReservesBatch (g : ArbitrageGraph) (updates : List ReserveUpdate) : ArbitrageGraph :=
  let res := applyReserveWrites g.pairs updates
  let g1 := { g with pairs := res.1 }
  res.2.foldl batchEdgeStep g1

/-- `updatePairReserves` (graph.ts 599-601): singleton batch. -/
def updatePairReserves (g : ArbitrageGraph) (pairAddress : String) (r0 r1 : ℕ) : ArbitrageGraph :=
  updatePairReservesBatch g [⟨pairAddress, r0, r1⟩]

/-- `findBestPairForToken` (graph.ts 892-906): consult the highest-reserve
cache; fail if the cached pool is excluded or its recorded reserve is below
three times the requested amount. -/
def findBestPairForToken (g : ArbitrageGraph) (token : String) (amountIn : ℕ)
    (excludePairs : List String) : Option (String × ℕ) :=
  match alookup g.tokenToHighestReservePair token with
  | none => none
  | some bestPair =>
    if bestPair.pairAddress ∈ excludePairs then none
    else if bestPair.reserves < amountIn * 3 then none
    else some (bestPair.pairAddress, bestPair.fee)

/-- The freshly constructed graph. -/
def emptyGraph : ArbitrageGraph := ⟨[], [], [], []⟩

/-- A client-visible mutation of the graph: `addPair` or a batched reserve
update. -/
inductive GraphOp where
  | add (pair : PairInfo)
  | update (updates : List ReserveUpdate)
deriving DecidableEq

/-- Run a sequence of mutations against the empty graph. -/
def runOps (ops : List GraphOp) : ArbitrageGraph :=
  ops.foldl
    (fun g op =>
      match op with
      | .add p => addPair g p
      | .update us => updatePairReservesBatch g us)
    emptyGraph

/-! ### The bounded beam search (`findArbitrageOpportunities`, graph.ts 630-737)

The dynamic-programming phase is modelled by `runSearch`: it produces the
per-step DP levels (`dp[0] .. dp[maxDepth]`) and the list of raw candidate
paths pushed into `rawOpportunities`. The subsequent validation phase
(`calculateMaxProfit` per candidate, profit filter, ranking, top-20 slice)
is modelled separately by `calculateMaxProfit` below. -/

/-- `MAX_ENTRIES_PER_TOKEN` (constants.ts 41). -/
def MAX_ENTRIES_PER_TOKEN : ℕ := 10

/-- `maxHops` (constants.ts 40). -/
def maxHops : ℕ := 10

/-- `NERK` (constants.ts). -/
def NERK : Bool := true

/-- `ADDRESSES[1].address` (constants.ts), the secondary target token. -/
def nerkToken : String := "0x839FdB6cc98342B428E074C1573ADF6D48CA3bFd"

/-- A DP entry: simulated output of a unit input pushed along the partial
path, the token path, the pools consumed and the per-hop directions. -/
structure DPEntry where
  amountOut : ℚ
  path : List String
  pairs : List String
  directions : List Direction
deriving DecidableEq

/-- One level `dp[step]` of the DP table: token → capped entry bucket. -/
abbrev Level := List (String × List DPEntry)

/-- A raw candidate pushed into `rawOpportunities`. -/
structure RawOpp where
  path : List String
  pairs : List String
  directions : List Direction
deriving DecidableEq

/-- Stable insertion of an entry into a bucket sorted by descending
`amountOut` (equal keys keep the earlier entry first). -/
def insertDesc (e : DPEntry) : List DPEntry → List DPEntry
  | [] => [e]
  | x :: xs => if x.amountOut < e.amountOut then e :: x :: xs else x :: insertDesc e xs

/-- The stable descending sort performed by
`entries.sort((a, b) => b.amountOut - a.amountOut)`. -/
def sortDesc : List DPEntry → List DPEntry
  | [] => []
  | x :: xs => insertDesc x (sortDesc xs)

/-- Bucket update for one new entry (graph.ts 674-678): push, re-sort
descending, truncate to `MAX_ENTRIES_PER_TOKEN` (`entries.splice`). -/
def pushBucket (lvl : Level) (token : String) (e : DPEntry) : Level :=
  let entries := (alookup lvl token).getD []
  aset lvl token ((sortDesc (entries ++ [e])).take MAX_ENTRIES_PER_TOKEN)

/-- Emission predicate (graph.ts 680-708): from step 2 on, emit circular
paths back to the start token, and, with `NERK` enabled, paths between the
start token and the designated secondary token. -/
def emitCheck (startToken : String) (step : ℕ) (targetToken : String) : Bool :=
  if 2 ≤ step then
    if targetToken = startToken then true
    else if NERK then
      (!(decide (startToken = nerkToken)) && decide (targetToken = nerkToken)) ||
      (decide (startToken = nerkToken) && !(decide (targetToken = nerkToken))) ||
      (decide (startToken = nerkToken) && decide (targetToken = nerkToken))
    else false
  else false

/-- Processing of one edge for one surviving entry (graph.ts 656-709):
skip pools already consumed by the partial path, otherwise push the
extended entry into the destination bucket and emit it as a raw candidate
when the emission predicate fires. -/
def processEdge (startToken : String) (step : ℕ) (entry : DPEntry)
    (st : Level × List RawOpp) (edge : Edge) : Level × List RawOpp :=
  if edge.pairAddress ∈ entry.pairs then st
  else
    let feeMultiplier : ℚ := 1 - (edge.fee : ℚ) / 10000
    let amountInAfterFee := entry.amountOut * feeMultiplier
    let newAmountOut := amountInAfterFee * (edge.reserveOut : ℚ) /
      ((edge.reserveIn : ℚ) + amountInAfterFee)
    let newEntry : DPEntry :=
      ⟨newAmountOut, entry.path ++ [edge.toTok],
        entry.pairs ++ [edge.pairAddress], entry.directions ++ [edge.direction]⟩
    let lvl := pushBucket st.1 edge.toTok newEntry
    let raws :=
      if emitCheck startToken step edge.toTok then
        st.2 ++ [⟨newEntry.path, newEntry.pairs, newEntry.directions⟩]
      else st.2
    (lvl, raws)

/-- Processing of one token bucket of the previous level: every entry is
extended along every outgoing edge of the token. -/
def processToken (g : ArbitrageGraph) (startToken : String) (step : ℕ)
    (st : Level × List RawOpp) (kv : String × List DPEntry) : Level × List RawOpp :=
  let edges := (alookup g.graph kv.1).getD []
  kv.2.foldl (fun st2 entry => edges.foldl (processEdge startToken step entry) st2) st

/-- One full step of the DP loop: build `dp[step]` from `dp[step - 1]`. -/
def runStep (g : ArbitrageGraph) (startToken : String) (step : ℕ)
    (prev : Level) (raws : List RawOpp) : Level × List RawOpp :=
  prev.foldl (processToken g startToken step) ([], raws)

/-- `dp[0]`: the unit entry at the start token. -/
def initialLevel (startToken : String) : Level :=
  [(startToken, [⟨1, [startToken], [], []⟩])]

/-- Result of the DP phase: all levels `dp[0] .. dp[maxDepth]` and the raw
candidates, in emission order. -/
structure SearchResult where
  levels : List Level
  raws : List RawOpp
deriving DecidableEq

/-- One iteration of the step loop: run the step from the previous level
and record the produced level in the DP table. -/
def searchStep (g : ArbitrageGraph) (startToken : String)
    (acc : Level × List Level × List RawOpp) (i : ℕ) : Level × List Level × List RawOpp :=
  let res := runStep g startToken (i + 1) acc.1 acc.2.2
  (res.1, acc.2.1 ++ [res.1], res.2)

/-- The DP loop of `findArbitrageOpportunities` (graph.ts 641-712): the
step loop runs unconditionally for `step = 1 .. maxDepth`. -/
def runSearch (g : ArbitrageGraph) (startToken : String) (maxDepth : ℕ) : SearchResult :=
  let final :=
    (List.range maxDepth).foldl (searchStep g startToken)
      (initialLevel startToken, [initialLevel startToken], [])
  ⟨final.2.1, final.2.2⟩

/-! ### The profit solver (`createProfitFunctions` / `calculateMaxProfit`,
graph.ts 739-889) -/

/-- Per-hop parameters extracted by `createProfitFunctions` (graph.ts
796-814): direction-dependent effective fee and reserve orientation. -/
structure HopParams where
  effectiveFee : ℕ
  reserveIn : ℚ
  reserveOut : ℚ
deriving DecidableEq

/-- The extraction loop of `createProfitFunctions` (graph.ts 796-814). -/
def hopParams (pairsInfo : List PairInfo) (directions : List Direction) : List HopParams :=
  (pairsInfo.zip directions).map
    (fun pd =>
      let pair := pd.1
      match pd.2 with
      | Direction.token0ToToken1 =>
        ⟨if pair.isToken0 then pair.fee + pair.sellFeeBps else pair.fee + pair.buyFeeBps,
          (pair.reserve0 : ℚ), (pair.reserve1 : ℚ)⟩
      | Direction.token1ToToken0 =>
        ⟨if pair.isToken0 then pair.fee + pair.buyFeeBps else pair.fee + pair.sellFeeBps,
          (pair.reserve1 : ℚ), (pair.reserve0 : ℚ)⟩)

/-- The constant-product swap output (graph.ts 816-820). -/
def swapQ (hop : HopParams) (amountIn : ℚ) : ℚ :=
  let feeMultiplier : ℚ := 1 - (hop.effectiveFee : ℚ) / 10000
  let amountInAfterFee := amountIn * feeMultiplier
  amountInAfterFee * hop.reserveOut / (hop.reserveIn + amountInAfterFee)

/-- First derivative of the swap function (graph.ts 822-826). -/
def swapDerivativeQ (hop : HopParams) (amountIn : ℚ) : ℚ :=
  let feeMultiplier : ℚ := 1 - (hop.effectiveFee : ℚ) / 10000
  feeMultiplier * hop.reserveIn * hop.reserveOut /
    ((hop.reserveIn + feeMultiplier * amountIn) ^ 2)

/-- Second derivative of the swap function (graph.ts 828-832). -/
def swapSecondDerivativeQ (hop : HopParams) (amountIn : ℚ) : ℚ :=
  let feeMultiplier : ℚ := 1 - (hop.effectiveFee : ℚ) / 10000
  (-2 * feeMultiplier ^ 2 * hop.reserveIn * hop.reserveOut) /
    ((hop.reserveIn + feeMultiplier * amountIn) ^ 3)

/-- Forward simulation of `calculateProfit`: `none` models the JavaScript
`-Infinity` returned when an amount exceeds a hop's input reserve. -/
def runSwaps : List HopParams → ℚ → Option ℚ
  | [], amount => some amount
  | hop :: rest, amount =>
    if hop.reserveIn < amount then none else runSwaps rest (swapQ hop amount)

/-- `calculateProfit` (graph.ts 834-845): final amount minus input, or
`-Infinity` (`none`) when some hop is infeasible. -/
def calculateProfitQ (hops : List HopParams) (inputAmount : ℚ) : Option ℚ :=
  (runSwaps hops inputAmount).map (fun amount => amount - inputAmount)

/-- Accumulating loop of `calculateJacobian` (graph.ts 847-856); returns
`0` as soon as a hop is infeasible, as the source does. -/
def jacobianGo : List HopParams → ℚ → ℚ → ℚ
  | [], derivative, _ => derivative - 1
  | hop :: rest, derivative, amount =>
    if hop.reserveIn < amount then 0
    else jacobianGo rest (derivative * swapDerivativeQ hop amount) (swapQ hop amount)

/-- `calculateJacobian` (graph.ts 847-856). -/
def calculateJacobianQ (hops : List HopParams) (inputAmount : ℚ) : ℚ :=
  jacobianGo hops 1 inputAmount

/-- First loop of `calculateHessian` (graph.ts 864-870): the per-hop first
and second derivatives at the running intermediate amounts; `none` models
the early `return 0` on an infeasible hop. -/
def hessianPrecompute : List HopParams → ℚ → Option (List ℚ × List ℚ)
  | [], _ => some ([], [])
  | hop :: rest, amount =>
    if hop.reserveIn < amount then none
    else
      match hessianPrecompute rest (swapQ hop amount) with
      | none => none
      | some ds =>
        some (swapDerivativeQ hop amount :: ds.1, swapSecondDerivativeQ hop amount :: ds.2)

/-- Inner product loop of `calculateHessian` (graph.ts 876-879): the i-th
term is the i-th second derivative times every other first derivative. -/
def prodExcept (ds : List ℚ) (i : ℕ) : ℚ :=
  (List.range ds.length).foldl (fun acc j => if i = j then acc else acc * ds.getD j 0) 1

/-- Second loop of `calculateHessian` (graph.ts 872-884), accumulating the
sum of terms while forward-simulating; `none` models the `return 0` on an
infeasible hop. -/
def hessianGo (ds ss : List ℚ) : List HopParams → ℕ → ℚ → ℚ → Option ℚ
  | [], _, _, acc => some acc
  | hop :: rest, i, amount, acc =>
    if hop.reserveIn < amount then none
    else hessianGo ds ss rest (i + 1) (swapQ hop amount) (acc + ss.getD i 0 * prodExcept ds i)

/-- `calculateHessian` (graph.ts 858-886). -/
def calculateHessianQ (hops : List HopParams) (inputAmount : ℚ) : ℚ :=
  match hessianPrecompute hops inputAmount with
  | none => 0
  | some ds =>
    match hessianGo ds.1 ds.2 hops 0 inputAmount 0 with
    | none => 0
    | some h => h

/-- State of the Newton-Raphson loop of `calculateMaxProfit`. `done` models
the `break` statements; `maxProfit = none` models the `-Infinity` initial
best. -/
structure NewtonState where
  inputAmount : ℚ
  maxProfit : Option ℚ
  optimalInput : ℚ
  done : Bool
deriving DecidableEq

/-- The JavaScript comparison `profit > maxProfit` where `maxProfit` starts
at `-Infinity` (`none`) and `profit` is `-Infinity` (`none`) or finite. -/
def profitGt : Option ℚ → Option ℚ → Bool
  | some p, some m => decide (m < p)
  | some _, none => true
  | none, _ => false

/-- One iteration of the Newton loop (graph.ts 759-775), in source order:
evaluate profit, Jacobian and Hessian at the current iterate; stop on a
zero Hessian; take the Newton step; stop if the step is below the
tolerance; clamp the new iterate at zero; record the profit of the old
iterate together with the new iterate when it improves the best. -/
def newtonStep (hops : List HopParams) (st : NewtonState) : NewtonState :=
  if st.done then st
  else
    let profit := calculateProfitQ hops st.inputAmount
    let jacobian := calculateJacobianQ hops st.inputAmount
    let hessian := calculateHessianQ hops st.inputAmount
    if hessian = 0 then { st with done := true }
    else
      let delta := jacobian / hessian
      let newInputAmount := st.inputAmount - delta
      if |newInputAmount - st.inputAmount| < 1 / 100000000 then { st with done := true }
      else
        let inputAmount2 := max 0 newInputAmount
        if profitGt profit st.maxProfit then
          ⟨inputAmount2, profit, inputAmount2, false⟩
        else { st with inputAmount := inputAmount2 }

/-- `calculateMaxProfit` (graph.ts 739-778): up to 100 Newton iterations
from the initial guess `9e18`, returning the tracked best profit (`none`
is `-Infinity`) and the tracked optimal input. -/
def calculateMaxProfit (hops : List HopParams) : Option ℚ × ℚ :=
  let final :=
    (List.range 100).foldl (fun st _ => newtonStep hops st) ⟨9 * 10 ^ 18, none, 0, false⟩
  (final.maxProfit, final.optimalInput)

/-! ### The batch scheduler (`OpportunityManager.processOpportunities`,
unnamed/part_002 16-87)

The external submission collaborator (contract simulation, signing,
broadcast) may throw; it is abstracted by a failure oracle
`fails : SchedOpp → Bool` deciding which submissions throw. Pool addresses
are taken to be canonical strings, so `toLowerCase` is the identity. -/

/-- An opportunity handed to the scheduler. -/
structure SchedOpp where
  path : List String
  pairs : List String
  fees : List ℕ
  optimalAmount : ℕ
  expectedProfit : ℤ
deriving DecidableEq

/-- Scheduler state: the `usedPairs` committed-pool set, plus the histories
of submission attempts and successful submissions for this batch. -/
structure SchedState where
  usedPairs : List String
  submitted : List SchedOpp
  executed : List SchedOpp
deriving DecidableEq

/-- `hasConflict` (part_002 33-35). -/
def hasConflict (used : List String) (pairs : List String) : Bool :=
  pairs.any (fun p => decide (p ∈ used))

/-- `markPairsAsUsed` (part_002 37-39). -/
def markPairsAsUsed (used : List String) (pairs : List String) : List String :=
  pairs.foldl (fun u p => if p ∈ u then u else u ++ [p]) used

/-- Stable insertion for the descending profit sort. -/
def insertProfitDesc (o : SchedOpp) : List SchedOpp → List SchedOpp
  | [] => [o]
  | x :: xs => if x.expectedProfit < o.expectedProfit then o :: x :: xs else x :: insertProfitDesc o xs

/-- The stable sort `[...opportunities].sort((a, b) =>
Number(b.expectedProfit - a.expectedProfit))` (part_002 47-49). -/
def sortOppsDesc : List SchedOpp → List SchedOpp
  | [] => []
  | x :: xs => insertProfitDesc x (sortOppsDesc xs)

/-- Processing of one opportunity (part_002 55-83): skip on a pool
conflict; otherwise submit; on success mark the pools as used; a throwing
submission is caught and leaves the committed set and success history
unchanged. -/
def processOne (fails : SchedOpp → Bool) (st : SchedState) (opp : SchedOpp) : SchedState :=
  if hasConflict st.usedPairs opp.pairs then st
  else if fails opp then { st with submitted := st.submitted ++ [opp] }
  else
    { usedPairs := markPairsAsUsed st.usedPairs opp.pairs,
      submitted := st.submitted ++ [opp],
      executed := st.executed ++ [opp] }

/-- The scheduler loop over an already-sorted batch. -/
def processList (fails : SchedOpp → Bool) (st : SchedState) (opps : List SchedOpp) : SchedState :=
  opps.foldl (processOne fails) st

/-- `processOpportunities` (part_002 42-87): sort by descending profit,
process the batch, clear the committed-pool set at the end. -/
def processOpportunities (fails : SchedOpp → Bool) (opps : List SchedOpp) : SchedState :=
  let final := processList fails ⟨[], [], []⟩ (sortOppsDesc opps)
  { final with usedPairs := [] }

/-! ### Specification-side notions used to state the claims -/

/-- Bucket bound of the beam: no per-token bucket of a level exceeds
`MAX_ENTRIES_PER_TOKEN` entries. -/
def levelBound (lvl : Level) : Prop :=
  ∀ kv ∈ lvl, kv.2.length ≤ MAX_ENTRIES_PER_TOKEN

/-- Every entry of a level has duplicate-free pool list. -/
def levelNodup (lvl : Level) : Prop :=
  ∀ kv ∈ lvl, ∀ e ∈ kv.2, e.pairs.Nodup

/-- Two opportunities are pool-disjoint. -/
def oppDisjoint (a b : SchedOpp) : Prop :=
  ∀ p ∈ a.pairs, p ∉ b.pairs

/-- The edges of a pool visible in one adjacency list. -/
def edgesWithPair (es : List Edge) (pairAddress : String) : List Edge :=
  es.filter (fun e => decide (e.pairAddress = pairAddress))

/-- The `token0 -> token1` edge a pool record should produce. -/
def expectedEdge0 (q : PairInfo) : Edge :=
  ⟨q.token1, q.pairAddress, Direction.token0ToToken1,
    calculateEffectiveFee Direction.token0ToToken1 q, q.reserve0, q.reserve1⟩

/-- The `token1 -> token0` edge a pool record should produce. -/
def expectedEdge1 (q : PairInfo) : Edge :=
  ⟨q.token0, q.pairAddress, Direction.token1ToToken0,
    calculateEffectiveFee Direction.token1ToToken0 q, q.reserve1, q.reserve0⟩

/-- Per-pool abstract state over an operation history: the pool-map entry
(`regInfo`) and the pool record used by the last `updateGraphEdges` call
that actually rebuilt the edges (`lastApplied`). -/
structure PairTrack where
  regInfo : Option PairInfo
  lastApplied : Option PairInfo
deriving DecidableEq

/-- Effect of one operation on the abstract per-pool state: an `addPair`
with nonzero reserves registers and applies the record; a batched update
on a registered pool rewrites its reserves to the last update of the
batch, and re-applies the record only when both final reserves are
nonzero. -/
def trackOp (P : String) (t : PairTrack) (op : GraphOp) : PairTrack :=
  match op with
  | .add p =>
    if p.reserve0 = 0 ∨ p.reserve1 = 0 then t
    else if p.pairAddress = P then ⟨some p, some p⟩ else t
  | .update us =>
    match t.regInfo with
    | none => t
    | some info =>
      match (us.filter (fun u => decide (u.pairAddress = P))).getLast? with
      | none => t
      | some u =>
        let info2 := { info with reserve0 := u.reserve0, reserve1 := u.reserve1 }
        if u.reserve0 = 0 ∨ u.reserve1 = 0 then ⟨some info2, t.lastApplied⟩
        else ⟨some info2, some info2⟩

/-- Abstract per-pool state after a history of operations. -/
def specTrack (ops : List GraphOp) (P : String) : PairTrack :=
  ops.foldl (trackOp P) ⟨none, none⟩

/-- Well-formedness of an operation history: every added pool has two
distinct tokens, and any two additions of the same pool address agree on
the tokens. -/
def opsCoherent (ops : List GraphOp) : Bool :=
  ops.all (fun op =>
    match op with
    | .add p =>
      !(decide (p.token0 = p.token1)) &&
        ops.all (fun op2 =>
          match op2 with
          | .add q =>
            !(decide (p.pairAddress = q.pairAddress)) ||
              (decide (p.token0 = q.token0) && decide (p.token1 = q.token1))
          | .update _ => true)
    | .update _ => true)

/-- The pool record behind an abstract per-pool state is internally
consistent and originates from an addition in the history. -/
def trackConsistent (ops : List GraphOp) (P : String) (info : PairInfo) : Prop :=
  info.pairAddress = P ∧ info.token0 ≠ info.token1 ∧
    ∃ a, GraphOp.add a ∈ ops ∧ a.pairAddress = P ∧
      a.token0 = info.token0 ∧ a.token1 = info.token1

/-- Full abstraction relation between a graph state and an operation
history, for every pool address: the pool map matches `regInfo`, the
tracked records are consistent, and the adjacency structure carries
exactly the two edges derived from `lastApplied` (none when no
`updateGraphEdges` ever ran for the pool). -/
def graphMatchesTrack (ops : List GraphOp) (g : ArbitrageGraph) : Prop :=
  ∀ P : String,
    alookup g.pairs P = (specTrack ops P).regInfo ∧
    (∀ r, (specTrack ops P).regInfo = some r → trackConsistent ops P r) ∧
    (∀ q, (specTrack ops P).lastApplied = some q → trackConsistent ops P q) ∧
    (match (specTrack ops P).lastApplied with
     | none => ∀ t, edgesWithPair ((alookup g.graph t).getD []) P = []
     | some q =>
       edgesWithPair ((alookup g.graph q.token0).getD []) P = [expectedEdge0 q] ∧
       edgesWithPair ((alookup g.graph q.token1).getD []) P = [expectedEdge1 q] ∧
       ∀ t, t ≠ q.token0 → t ≠ q.token1 →
         edgesWithPair ((alookup g.graph t).getD []) P = [])

/-- Histories consisting of `addPair` calls only. -/
def opsAddOnly (ops : List GraphOp) : Bool :=
  ops.all (fun op =>
    match op with
    | .add _ => true
    | .update _ => false)

/-- The incident reserve sides a token accumulates over a history of
additions: for every added pool with nonzero reserves that touches the
token, the pool's reserve on the token's side, in history order. -/
def sidesForToken (ops : List GraphOp) (t : String) : List BestPair :=
  ops.foldl
    (fun acc op =>
      match op with
      | .add p =>
        if p.reserve0 = 0 ∨ p.reserve1 = 0 then acc
        else
          acc ++ (if p.token0 = t then [⟨p.pairAddress, p.reserve0, p.fee⟩] else []) ++
            (if p.token1 = t then [⟨p.pairAddress, p.reserve1, p.fee⟩] else [])
      | .update _ => acc)
    []

/-- Strict-improvement maximum step: keep the incumbent unless the
challenger's reserve is strictly larger. -/
def stepBest (acc : Option BestPair) (b : BestPair) : Option BestPair :=
  match acc with
  | none => some b
  | some a => if a.reserves < b.reserves then some b else some a

/-- The first maximal element (by reserve, earliest wins ties). -/
def firstMaxBy (l : List BestPair) : Option BestPair :=
  l.foldl stepBest none

/-- The claim's reading of `bestPoolFor`: some registered pool is incident
to the token, is not excluded, and its reserve on the token's side
strictly exceeds three times the amount. -/
def claimQualifies (g : ArbitrageGraph) (token : String) (amountIn : ℕ)
    (excludePairs : List String) (P : String) : Prop :=
  ∃ p, alookup g.pairs P = some p ∧ P ∉ excludePairs ∧
    ((p.token0 = token ∧ amountIn * 3 < p.reserve0) ∨
      (p.token1 = token ∧ amountIn * 3 < p.reserve1))

/-! ### Concrete instances used by counterexamples and witnesses -/

/-- A pool with small nonzero reserves (claims about zero-reserve
updates). -/
def pC1 : PairInfo := ⟨"0xP", "0xA", "0xB", 1, 2, 30, 0, 0, false⟩

/-- The history that adds `pC1` and then updates its reserves to `(0, 5)`. -/
def opsC1 : List GraphOp := [GraphOp.add pC1, GraphOp.update [⟨"0xP", 0, 5⟩]]

/-- First hop of the profit-solver counterexample: a steep pool. -/
def P1cex : PairInfo := ⟨"0xP1", "0xA", "0xB", 10 ^ 19, 10 ^ 21, 0, 0, 0, false⟩

/-- Second hop of the profit-solver counterexample: a deep neutral pool. -/
def P2cex : PairInfo := ⟨"0xP2", "0xB", "0xA", 10 ^ 30, 10 ^ 30, 0, 0, 0, false⟩

/-- The two-hop cycle `0xA -> 0xB -> 0xA` fed to the profit solver. -/
def cexHops : List HopParams :=
  hopParams [P1cex, P2cex] [Direction.token0ToToken1, Direction.token0ToToken1]

/-- The exact first Newton iterate of the counterexample run. -/
def cexIterate : ℚ := 6899679003209786999912276999986149 / 380000000187220

/-- The exact profit of the counterexample run at the initial guess. -/
def cexProfit : ℚ := 8828999999919000000000000000000 / 19000000009

/-- High-profit scheduler opportunity whose submission throws. -/
def oppA : SchedOpp := ⟨["0xS", "0xB", "0xS"], ["0xp"], [0], 1, 2⟩

/-- Lower-profit scheduler opportunity sharing the pool of `oppA`. -/
def oppB : SchedOpp := ⟨["0xS", "0xC", "0xS"], ["0xp"], [0], 1, 1⟩

/-- Failure oracle of the scheduler counterexamples: the profit-2
submission throws. -/
def cexFails (o : SchedOpp) : Bool := decide (o.expectedProfit = 2)

/-- High-profit scheduler opportunity whose submission throws (second
scenario). -/
def oppA4 : SchedOpp := ⟨["0xS", "0xB", "0xS"], ["0xq"], [0], 1, 5⟩

/-- Lower-profit scheduler opportunity sharing the pool of `oppA4`. -/
def oppB4 : SchedOpp := ⟨["0xS", "0xC", "0xS"], ["0xq"], [0], 1, 3⟩

/-- Failure oracle of the second scheduler scenario: the profit-5
submission throws. -/
def cexFails4 (o : SchedOpp) : Bool := decide (o.expectedProfit = 5)

/-- Highest-reserve pool incident to `0xT`. -/
def p51 : PairInfo := ⟨"0xQ1", "0xT", "0xB", 100, 100, 30, 0, 0, false⟩

/-- Second-highest-reserve pool incident to `0xT`. -/
def p52 : PairInfo := ⟨"0xQ2", "0xT", "0xC", 50, 50, 25, 0, 0, false⟩

/-- History building the two-pool graph around `0xT`. -/
def ops5 : List GraphOp := [GraphOp.add p51, GraphOp.add p52]

/-- A pool not incident to the isolated start token `0xS`. -/
def pBC : PairInfo := ⟨"0xPBC", "0xB", "0xC", 5, 5, 30, 0, 0, false⟩

/-- Graph for the early-termination counterexample: `0xS` has no edges. -/
def gC7 : ArbitrageGraph := addPair emptyGraph pBC

/-- First pool of the two-pool cycle `0xX <-> 0xY`. -/
def pXY1 : PairInfo := ⟨"0xPa", "0xX", "0xY", 10, 10, 0, 0, 0, false⟩

/-- Second pool of the two-pool cycle `0xX <-> 0xY`. -/
def pXY2 : PairInfo := ⟨"0xPb", "0xX", "0xY", 10, 10, 0, 0, 0, false⟩

/-- Graph with a genuine two-hop cycle from `0xX`. -/
def gC9 : ArbitrageGraph := addPair (addPair emptyGraph pXY1) pXY2

/-- The raw candidate emitted first by the search on `gC9`. -/
def cexRaw : RawOpp := ⟨["0xX", "0xY", "0xX"], ["0xPb", "0xPa"],
  [Direction.token0ToToken1, Direction.token1ToToken0]⟩

/-- Pool for the effective-fee witness: token1 is taxed. -/
def pair6 : PairInfo := ⟨"0xP6", "0xA6", "0xB6", 7, 9, 30, 40, 60, false⟩

/-- Pool for the edge-uniqueness witness. -/
def pW : PairInfo := ⟨"0xW", "0xA", "0xB", 4, 6, 30, 0, 0, false⟩

/-- History for the edge-uniqueness witness: one addition, one ordinary
(nonzero) reserve update. -/
def ops10 : List GraphOp := [GraphOp.add pW, GraphOp.update [⟨"0xW", 8, 9⟩]]

/-! ## Generic helper lemmas -/

theorem foldl_preserve {α β : Type} (P : β → Prop) (f : β → α → β) :
    ∀ (l : List α) (st : β), (∀ a ∈ l, ∀ b, P b → P (f b a)) → P st → P (l.foldl f st)
  | [], _, _, hst => hst
  | x :: xs, st, h, hst =>
    foldl_preserve P f xs (f st x) (fun a ha b hb => h a (List.mem_cons_of_mem _ ha) b hb)
      (h x (List.mem_cons_self _ _) st hst)

theorem alookup_nil {α : Type} (k : String) : alookup ([] : List (String × α)) k = none := rfl

theorem alookup_cons {α : Type} (kv : String × α) (l : List (String × α)) (k : String) :
    alookup (kv :: l) k = if kv.1 = k then some kv.2 else alookup l k := by
  by_cases h : kv.1 = k
  · simp [alookup, List.find?, h]
  · simp [alookup, List.find?, h]

theorem alookup_aset_self {α : Type} (l : List (String × α)) (k : String) (v : α) :
    alookup (aset l k v) k = some v := by
  induction l with
  | nil => simp [aset, alookup_cons]
  | cons kv rest ih =>
    by_cases h : kv.1 = k
    · simp [aset, h, alookup_cons]
    · simp [aset, h, alookup_cons, ih]

theorem alookup_aset_ne {α : Type} (l : List (String × α)) (k k' : String) (v : α)
    (h : k ≠ k') : alookup (aset l k v) k' = alookup l k' := by
  induction l with
  | nil => simp [aset, alookup_cons, alookup_nil, h]
  | cons kv rest ih =>
    by_cases hk : kv.1 = k
    · simp [aset, hk, alookup_cons, h, hk ▸ h]
    · simp [aset, hk, alookup_cons, ih]

theorem mem_aset {α : Type} (kv : String × α) :
    ∀ (l : List (String × α)) (k : String) (v : α), kv ∈ aset l k v → kv = (k, v) ∨ kv ∈ l := by
  intro l
  induction l with
  | nil => intro k v h; simpa [aset] using h
  | cons kv2 rest ih =>
    intro k v h
    by_cases hk : kv2.1 = k
    · simp only [aset, hk, if_pos] at h
      rcases List.mem_cons.mp h with h | h
      · exact Or.inl h
      · exact Or.inr (List.mem_cons_of_mem _ h)
    · simp only [aset, hk, if_neg, not_false_iff] at h
      rcases List.mem_cons.mp h with h | h
      · exact Or.inr (h ▸ List.mem_cons_self _ _)
      · rcases ih k v h with h2 | h2
        · exact Or.inl h2
        · exact Or.inr (List.mem_cons_of_mem _ h2)

theorem alookup_mem {α : Type} :
    ∀ (l : List (String × α)) (k : String) (v : α), alookup l k = some v → (k, v) ∈ l := by
  intro l
  induction l with
  | nil => intro k v h; simp [alookup_nil] at h
  | cons kv rest ih =>
    intro k v h
    rw [alookup_cons] at h
    by_cases hk : kv.1 = k
    · rw [if_pos hk] at h
      have : kv = (k, v) := by
        cases kv
        simp_all
      exact this ▸ List.mem_cons_self _ _
    · rw [if_neg hk] at h
      exact List.mem_cons_of_mem _ (ih k v h)

/-! ## The beam search: step count, beam bound, pool uniqueness -/

theorem mem_insertDesc {a e : DPEntry} :
    ∀ {l : List DPEntry}, a ∈ insertDesc e l → a = e ∨ a ∈ l := by
  intro l
  induction l with
  | nil => intro h; simpa [insertDesc] using h
  | cons x xs ih =>
    intro h
    by_cases hx : x.amountOut < e.amountOut
    · simp only [insertDesc, if_pos hx] at h
      rcases List.mem_cons.mp h with h | h
      · exact Or.inl h
      · exact Or.inr h
    · simp only [insertDesc, if_neg hx] at h
      rcases List.mem_cons.mp h with h | h
      · exact Or.inr (h ▸ List.mem_cons_self _ _)
      · rcases ih h with h2 | h2
        · exact Or.inl h2
        · exact Or.inr (List.mem_cons_of_mem _ h2)

theorem mem_sortDesc {a : DPEntry} : ∀ {l : List DPEntry}, a ∈ sortDesc l → a ∈ l := by
  intro l
  induction l with
  | nil => intro h; simpa [sortDesc] using h
  | cons x xs ih =>
    intro h
    rcases mem_insertDesc (l := sortDesc xs) h with h2 | h2
    · exact h2 ▸ List.mem_cons_self _ _
    · exact List.mem_cons_of_mem _ (ih h2)

theorem levelBound_pushBucket {lvl : Level} (t : String) (e : DPEntry)
    (h : levelBound lvl) : levelBound (pushBucket lvl t e) := by
  intro kv hkv
  rcases mem_aset kv _ _ _ hkv with h2 | h2
  · subst h2
    simpa [MAX_ENTRIES_PER_TOKEN] using List.length_take_le MAX_ENTRIES_PER_TOKEN _
  · exact h kv h2

theorem levelBound_processEdge (s : String) (k : ℕ) (entry : DPEntry)
    (st : Level × List RawOpp) (edge : Edge) (h : levelBound st.1) :
    levelBound (processEdge s k entry st edge).1 := by
  unfold processEdge
  by_cases hmem : edge.pairAddress ∈ entry.pairs
  · simpa [hmem] using h
  · simpa [hmem] using levelBound_pushBucket _ _ h

theorem levelBound_processToken (g : ArbitrageGraph) (s : String) (k : ℕ)
    (st : Level × List RawOpp) (kv : String × List DPEntry) (h : levelBound st.1) :
    levelBound (processToken g s k st kv).1 := by
  unfold processToken
  refine foldl_preserve (fun st2 => levelBound st2.1) _ kv.2 st (fun entry _ st2 h2 => ?_) h
  exact foldl_preserve (fun st3 => levelBound st3.1) _ _ st2
    (fun edge _ st3 h3 => levelBound_processEdge s k entry st3 edge h3) h2

theorem levelBound_runStep (g : ArbitrageGraph) (s : String) (k : ℕ)
    (prev : Level) (raws : List RawOpp) : levelBound (runStep g s k prev raws).1 := by
  unfold runStep
  refine foldl_preserve (fun st => levelBound st.1) _ prev ([], raws)
    (fun kv _ st h => levelBound_processToken g s k st kv h) ?_
  intro kv hkv
  simp at hkv

theorem levelBound_initialLevel (s : String) : levelBound (initialLevel s) := by
  intro kv hkv
  simp only [initialLevel, List.mem_singleton] at hkv
  subst hkv
  simp [MAX_ENTRIES_PER_TOKEN]

/-- C8. For every run of the cycle search, processing an edge preserves
the beam bound of the level under construction, and every per-token bucket
of every level of the DP table holds at most `MAX_ENTRIES_PER_TOKEN = 10`
entries. -/
theorem beam_bound_invariant :
    (∀ (s : String) (k : ℕ) (entry : DPEntry) (st : Level × List RawOpp) (edge : Edge),
      levelBound st.1 → levelBound (processEdge s k entry st edge).1) ∧
    (∀ (g : ArbitrageGraph) (s : String) (d : ℕ),
      ∀ lvl ∈ (runSearch g s d).levels, levelBound lvl) := by
  constructor
  · exact fun s k entry st edge h => levelBound_processEdge s k entry st edge h
  · intro g s d lvl hlvl
    unfold runSearch at hlvl
    have main : ∀ (is : List ℕ) (acc : Level × List Level × List RawOpp),
        (∀ l ∈ acc.2.1, levelBound l) →
        ∀ l ∈ (is.foldl (searchStep g s) acc).2.1, levelBound l := by
      intro is
      induction is with
      | nil => intro acc hacc l hl; exact hacc l hl
      | cons i is ih =>
        intro acc hacc l hl
        refine ih (searchStep g s acc i) ?_ l hl
        intro l2 hl2
        simp only [searchStep, List.mem_append, List.mem_singleton] at hl2
        rcases hl2 with hl2 | hl2
        · exact hacc l2 hl2
        · exact hl2 ▸ levelBound_runStep g s (i + 1) acc.1 acc.2.2
    refine main (List.range d) _ ?_ lvl hlvl
    intro l hl
    simp only [List.mem_singleton] at hl
    exact hl ▸ levelBound_initialLevel s

/-- Witness for C8 at a concrete state: the empty level is bounded, and so
is the level obtained by pushing one edge extension into it. -/
theorem beam_bound_invariant_witness :
    levelBound (processEdge "0xX" 2 ⟨1, ["0xX"], [], []⟩ ([], [])
      ⟨"0xY", "0xPa", Direction.token0ToToken1, 0, 10, 10⟩).1 :=
  beam_bound_invariant.1 "0xX" 2 ⟨1, ["0xX"], [], []⟩ ([], [])
    ⟨"0xY", "0xPa", Direction.token0ToToken1, 0, 10, 10⟩
    (by intro kv hkv; simp at hkv)

theorem levelNodup_pushBucket {lvl : Level} (t : String) (e : DPEntry)
    (hlvl : levelNodup lvl) (he : e.pairs.Nodup) : levelNodup (pushBucket lvl t e) := by
  intro kv hkv e2 he2
  rcases mem_aset kv _ _ _ hkv with h2 | h2
  · subst h2
    have h3 : e2 ∈ sortDesc (((alookup lvl t).getD []) ++ [e]) :=
      List.mem_of_mem_take he2
    rcases List.mem_append.mp (mem_sortDesc h3) with h4 | h4
    · cases hfind : alookup lvl t with
      | none => rw [hfind] at h4; simp at h4
      | some bucket =>
        rw [hfind] at h4
        exact hlvl (t, bucket) (alookup_mem _ _ _ hfind) e2 h4
    · rw [List.mem_singleton.mp h4]
      exact he
  · exact hlvl kv h2 e2 he2

theorem nodup_processEdge (s : String) (k : ℕ) (entry : DPEntry)
    (st : Level × List RawOpp) (edge : Edge) (hE : entry.pairs.Nodup)
    (h1 : levelNodup st.1) (h2 : ∀ r ∈ st.2, r.pairs.Nodup) :
    levelNodup (processEdge s k entry st edge).1 ∧
      ∀ r ∈ (processEdge s k entry st edge).2, r.pairs.Nodup := by
  unfold processEdge
  by_cases hmem : edge.pairAddress ∈ entry.pairs
  · simp only [hmem, if_pos]
    exact ⟨h1, h2⟩
  · have hnew : (entry.pairs ++ [edge.pairAddress]).Nodup := by
      rw [List.nodup_append]
      refine ⟨hE, List.nodup_singleton _, ?_⟩
      intro x hx hxa
      rw [List.mem_singleton] at hxa
      exact hmem (hxa ▸ hx)
    simp only [hmem, if_neg, not_false_iff]
    constructor
    · exact levelNodup_pushBucket _ _ h1 hnew
    · intro r hr
      by_cases hemit : emitCheck s k edge.toTok
      · simp only [hemit, if_pos] at hr
        rcases List.mem_append.mp hr with hr2 | hr2
        · exact h2 r hr2
        · rw [List.mem_singleton.mp hr2]
          exact hnew
      · simp only [hemit, if_neg, not_false_iff] at hr
        exact h2 r hr

theorem nodup_runStep (g : ArbitrageGraph) (s : String) (k : ℕ)
    (prev : Level) (raws : List RawOpp) (hprev : levelNodup prev)
    (hraws : ∀ r ∈ raws, r.pairs.Nodup) :
    levelNodup (runStep g s k prev raws).1 ∧
      ∀ r ∈ (runStep g s k prev raws).2, r.pairs.Nodup := by
  unfold runStep
  refine foldl_preserve
    (fun st => levelNodup st.1 ∧ ∀ r ∈ st.2, r.pairs.Nodup) _ prev ([], raws)
    (fun kv hkv st hst => ?_) ⟨by intro kv hkv; simp at hkv, hraws⟩
  unfold processToken
  refine foldl_preserve (fun st2 => levelNodup st2.1 ∧ ∀ r ∈ st2.2, r.pairs.Nodup) _ kv.2 st
    (fun entry hentry st2 hst2 => ?_) hst
  refine foldl_preserve (fun st3 => levelNodup st3.1 ∧ ∀ r ∈ st3.2, r.pairs.Nodup) _ _ st2
    (fun edge _ st3 hst3 => ?_) hst2
  exact nodup_processEdge s k entry st3 edge (hprev kv hkv entry hentry) hst3.1 hst3.2

/-- C9. Every raw candidate emitted by the cycle search has a
duplicate-free pool list: an extension through a pool already consumed by
the partial path is skipped, so no pool is used twice within one path. -/
theorem raw_candidates_pool_nodup (g : ArbitrageGraph) (s : String) (d : ℕ) :
    ∀ raw ∈ (runSearch g s d).raws, raw.pairs.Nodup := by
  intro raw hraw
  unfold runSearch at hraw
  have main : ∀ (is : List ℕ) (acc : Level × List Level × List RawOpp),
      levelNodup acc.1 → (∀ r ∈ acc.2.2, r.pairs.Nodup) →
      ∀ r ∈ (is.foldl (searchStep g s) acc).2.2, r.pairs.Nodup := by
    intro is
    induction is with
    | nil => intro acc h1 h2 r hr; exact h2 r hr
    | cons i is ih =>
      intro acc h1 h2 r hr
      have hstep := nodup_runStep g s (i + 1) acc.1 acc.2.2 h1 h2
      exact ih (searchStep g s acc i) hstep.1 (by simpa [searchStep] using hstep.2) r hr
  refine main (List.range d) _ ?_ ?_ raw hraw
  · intro kv hkv e he
    simp only [initialLevel, List.mem_singleton] at hkv
    subst hkv
    simp only [List.mem_singleton] at he
    subst he
    exact List.nodup_nil
  · intro r hr
    simp at hr

theorem searchStep_levels_len (g : ArbitrageGraph) (s : String)
    (acc : Level × List Level × List RawOpp) (i : ℕ) :
    ((searchStep g s acc i).2.1).length = acc.2.1.length + 1 := by
  simp [searchStep]

theorem foldl_searchStep_levels_len (g : ArbitrageGraph) (s : String) :
    ∀ (is : List ℕ) (acc : Level × List Level × List RawOpp),
      ((is.foldl (searchStep g s) acc).2.1).length = acc.2.1.length + is.length := by
  intro is
  induction is with
  | nil => intro acc; rfl
  | cons i is ih =>
    intro acc
    rw [List.foldl_cons, ih, searchStep_levels_len, List.length_cons]
    omega

/-- C7 (amended). The bounded cycle search never stops early: for every
graph, start token and depth, the step loop performs all `maxDepth` steps
and the DP table holds exactly `maxDepth + 1` levels, even when an earlier
step produced no beam update. -/
theorem search_runs_all_steps (g : ArbitrageGraph) (s : String) (d : ℕ) :
    (runSearch g s d).levels.length = d + 1 := by
  unfold runSearch
  rw [foldl_searchStep_levels_len, List.length_range]
  simp [Nat.add_comm]

/-- C7 (counterexample). On the graph whose start token `0xS` has no
outgoing edges, step 1 produces no beam update (the level is empty), yet
with `maxDepth = 3` the search still performs steps 2 and 3: the DP table
has 4 levels instead of the 2 an early-stopping loop would produce. -/
theorem search_no_early_stop_cex :
    (runSearch gC7 "0xS" 3).levels.getD 1 [("0xS", [])] = [] ∧
      (runSearch gC7 "0xS" 3).levels.length = 4 ∧ ¬ (3 : ℕ) + 1 ≤ 2 := by
  refine ⟨by decide, by decide, by decide⟩

/-- Witness for C9: the cycle `0xX -> 0xY -> 0xX` through the pools `0xPb`
then `0xPa` is emitted by the search on `gC9`, and its pool list is
duplicate-free. -/
theorem raw_candidates_pool_nodup_witness :
    cexRaw ∈ (runSearch gC9 "0xX" 2).raws ∧ cexRaw.pairs.Nodup :=
  ⟨by
    simp [runSearch, searchStep, runStep, processToken, processEdge, pushBucket, emitCheck,
      initialLevel, gC9, pXY1, pXY2, addPair, updateGraphEdges, updateDirEdge,
      updateHighestReserve, calculateEffectiveFee, findEdge, emptyGraph, alookup, aset, addToken,
      List.find?_cons_of_pos, List.find?_cons_of_neg, List.find?_nil,
      List.range_succ, sortDesc, insertDesc, MAX_ENTRIES_PER_TOKEN, NERK, nerkToken, cexRaw,
      lt_self_iff_false],
   raw_candidates_pool_nodup gC9 "0xX" 2 cexRaw (by
    simp [runSearch, searchStep, runStep, processToken, processEdge, pushBucket, emitCheck,
      initialLevel, gC9, pXY1, pXY2, addPair, updateGraphEdges, updateDirEdge,
      updateHighestReserve, calculateEffectiveFee, findEdge, emptyGraph, alookup, aset, addToken,
      List.find?_cons_of_pos, List.find?_cons_of_neg, List.find?_nil,
      List.range_succ, sortDesc, insertDesc, MAX_ENTRIES_PER_TOKEN, NERK, nerkToken, cexRaw,
      lt_self_iff_false])⟩

/-! ## The batch scheduler: conflict freedom and failure semantics -/

theorem hasConflict_eq_false {used pairs : List String} (h : hasConflict used pairs = false) :
    ∀ p ∈ pairs, p ∉ used := by
  intro p hp
  simpa [hasConflict, List.any_eq_false] using (fun hmem => by
    have := List.any_eq_false.mp h p hp
    simp at this
    exact this hmem)

theorem mem_markPairsAsUsed :
    ∀ (pairs used : List String) (p : String), p ∈ used ∨ p ∈ pairs →
      p ∈ markPairsAsUsed used pairs := by
  intro pairs
  induction pairs with
  | nil =>
    intro used p h
    rcases h with h | h
    · exact h
    · simp at h
  | cons q rest ih =>
    intro used p h
    have hstep : ∀ u : List String, markPairsAsUsed u (q :: rest) =
        markPairsAsUsed (if q ∈ u then u else u ++ [q]) rest := by
      intro u
      rfl
    rw [hstep]
    rcases h with h | h
    · refine ih _ p (Or.inl ?_)
      by_cases hq : q ∈ used
      · simpa [hq] using h
      · simp [hq]
        exact Or.inl h
    · rcases List.mem_cons.mp h with h2 | h2
      · subst h2
        refine ih _ p (Or.inl ?_)
        by_cases hq : p ∈ used
        · simpa [hq] using hq
        · simp [hq]
      · exact ih _ p (Or.inr h2)

/-- The C3 invariant: every pool of a successfully executed opportunity is
committed, and the successfully executed opportunities are pairwise
pool-disjoint. -/
def schedInv (st : SchedState) : Prop :=
  (∀ o ∈ st.executed, ∀ p ∈ o.pairs, p ∈ st.usedPairs) ∧
    st.executed.Pairwise oppDisjoint

theorem schedInv_processOne (fails : SchedOpp → Bool) (st : SchedState) (opp : SchedOpp)
    (h : schedInv st) : schedInv (processOne fails st opp) := by
  unfold processOne
  by_cases hc : hasConflict st.usedPairs opp.pairs
  · simpa [hc] using h
  · by_cases hf : fails opp
    · simpa [hc, hf] using h
    · simp only [hc, hf, Bool.false_eq_true, if_neg, not_false_iff]
      constructor
      · intro o ho p hp
        rcases List.mem_append.mp ho with ho2 | ho2
        · exact mem_markPairsAsUsed _ _ _ (Or.inl (h.1 o ho2 p hp))
        · rw [List.mem_singleton.mp ho2] at hp
          exact mem_markPairsAsUsed _ _ _ (Or.inr hp)
      · rw [List.pairwise_append]
        refine ⟨h.2, List.pairwise_singleton _ _, ?_⟩
        intro a ha b hb p hpa hpb
        rw [List.mem_singleton.mp hb] at hpb
        have hused : p ∈ st.usedPairs := h.1 a ha p hpa
        have hbool : hasConflict st.usedPairs opp.pairs = false := by
          simpa using hc
        exact hasConflict_eq_false hbool p hpb hused

/-- C3 (amended). In every scheduler batch, the set of successfully
executed opportunities is pairwise pool-disjoint — an opportunity is
attempted only if none of its pools is already committed, and pools are
committed upon successful execution — and the committed set is cleared at
the end of the batch. -/
theorem executed_batch_pool_disjoint (fails : SchedOpp → Bool) (opps : List SchedOpp) :
    (processOpportunities fails opps).executed.Pairwise oppDisjoint ∧
      (processOpportunities fails opps).usedPairs = [] := by
  constructor
  · have h : schedInv (processList fails ⟨[], [], []⟩ (sortOppsDesc opps)) := by
      refine foldl_preserve schedInv _ _ _ (fun opp _ st hst =>
        schedInv_processOne fails st opp hst) ?_
      exact ⟨by intro o ho; simp at ho, List.Pairwise.nil⟩
    simpa [processOpportunities] using h.2
  · simp [processOpportunities]

/-- C3 (counterexample). With two equal-pool opportunities where the
higher-profit submission throws, both opportunities are submitted in the
same batch: the set of submitted opportunities is not pairwise
pool-disjoint, because pools are only committed after a successful
submission. -/
theorem submitted_batch_not_disjoint_cex :
    ¬ (processOpportunities cexFails [oppA, oppB]).submitted.Pairwise oppDisjoint := by
  intro h
  have hsub : (processOpportunities cexFails [oppA, oppB]).submitted = [oppA, oppB] := by
    decide
  rw [hsub] at h
  have hdis : oppDisjoint oppA oppB := by
    rcases List.pairwise_cons.mp h with ⟨h1, _⟩
    exact h1 oppB (List.mem_cons_self _ _)
  exact hdis "0xp" (by decide) (by decide)

theorem processOne_proj (fails : SchedOpp → Bool) (st st' : SchedState) (opp : SchedOpp)
    (hu : st.usedPairs = st'.usedPairs) (he : st.executed = st'.executed) :
    (processOne fails st opp).usedPairs = (processOne fails st' opp).usedPairs ∧
      (processOne fails st opp).executed = (processOne fails st' opp).executed := by
  unfold processOne
  rw [hu, he]
  by_cases hc : hasConflict st'.usedPairs opp.pairs
  · simp [hc, hu, he]
  · by_cases hf : fails opp
    · simp [hc, hf, hu, he]
    · simp [hc, hf, hu, he]

theorem processOne_fail_proj (fails : SchedOpp → Bool) (st : SchedState) (opp : SchedOpp)
    (hf : fails opp = true) :
    (processOne fails st opp).usedPairs = st.usedPairs ∧
      (processOne fails st opp).executed = st.executed := by
  unfold processOne
  by_cases hc : hasConflict st.usedPairs opp.pairs
  · simp [hc]
  · simp [hc, hf]

theorem processList_filter_fail (fails : SchedOpp → Bool) :
    ∀ (l : List SchedOpp) (st st' : SchedState),
      st.usedPairs = st'.usedPairs → st.executed = st'.executed →
      (processList fails st l).usedPairs =
          (processList fails st' (l.filter (fun o => !fails o))).usedPairs ∧
        (processList fails st l).executed =
          (processList fails st' (l.filter (fun o => !fails o))).executed := by
  intro l
  induction l with
  | nil => intro st st' hu he; exact ⟨hu, he⟩
  | cons o rest ih =>
    intro st st' hu he
    by_cases hf : fails o
    · have hdrop : (o :: rest).filter (fun o => !fails o) =
          rest.filter (fun o => !fails o) := by
        simp [List.filter, hf]
      rw [hdrop]
      have hstep := processOne_fail_proj fails st o hf
      have h1 : (processOne fails st o).usedPairs = st'.usedPairs := hstep.1.trans hu
      have h2 : (processOne fails st o).executed = st'.executed := hstep.2.trans he
      simpa [processList] using ih (processOne fails st o) st' h1 h2
    · have hkeep : (o :: rest).filter (fun o => !fails o) =
          o :: rest.filter (fun o => !fails o) := by
        simp [List.filter, hf]
      rw [hkeep]
      have hstep := processOne_proj fails st st' o hu he
      simpa [processList] using ih (processOne fails st o) (processOne fails st' o)
        hstep.1 hstep.2

/-- C4 (amended). A submission failure is caught per-opportunity and does
not halt the batch or corrupt scheduler state, and the failed
opportunity's pools are not marked committed: the batch produces exactly
the successful executions and committed pools it would produce if the
failing opportunities were absent from the (profit-sorted) batch. -/
theorem failure_leaves_batch_as_without (fails : SchedOpp → Bool) (opps : List SchedOpp) :
    (processOpportunities fails opps).executed =
        (processList fails ⟨[], [], []⟩
          ((sortOppsDesc opps).filter (fun o => !fails o))).executed ∧
      (processList fails ⟨[], [], []⟩ (sortOppsDesc opps)).usedPairs =
        (processList fails ⟨[], [], []⟩
          ((sortOppsDesc opps).filter (fun o => !fails o))).usedPairs := by
  have h := processList_filter_fail fails (sortOppsDesc opps)
    ⟨[], [], []⟩ ⟨[], [], []⟩ rfl rfl
  exact ⟨by simpa [processOpportunities] using h.2, h.1⟩

/-- C4 (counterexample). After the higher-profit opportunity `oppA4`
throws, its pool `0xq` is not retained in the committed set: the
lower-profit `oppB4`, which uses the same pool, is executed later in the
same batch — the failed opportunity's pools do not remain committed. -/
theorem failed_pools_not_committed_cex :
    cexFails4 oppA4 = true ∧ oppA4 ∈ (processOpportunities cexFails4 [oppA4, oppB4]).submitted ∧
      (processOpportunities cexFails4 [oppA4, oppB4]).executed = [oppB4] ∧
      oppB4.pairs = oppA4.pairs := by
  refine ⟨by decide, by decide, by decide, by decide⟩

/-! ## Effective fees on the derived edges -/

theorem findEdge_updateEdgeFields_self (pa : String) (f ri ro : ℕ) :
    ∀ es : List Edge, findEdge (updateEdgeFields es pa f ri ro) pa =
      (findEdge es pa).map (fun e => { e with fee := f, reserveIn := ri, reserveOut := ro }) := by
  intro es
  induction es with
  | nil => rfl
  | cons e rest ih =>
    by_cases he : e.pairAddress = pa
    · simp [updateEdgeFields, he, findEdge, List.find?_cons_of_pos]
    · simp only [updateEdgeFields, he, if_neg, not_false_iff]
      rw [findEdge, List.find?_cons_of_neg, findEdge, List.find?_cons_of_neg]
      · exact ih
      · simpa using he
      · simpa using he

theorem findEdge_append_single (es : List Edge) (e : Edge) (pa : String) :
    findEdge (es ++ [e]) pa =
      match findEdge es pa with
      | some e0 => some e0
      | none => if e.pairAddress = pa then some e else none := by
  induction es with
  | nil =>
    cases he : decide (e.pairAddress = pa) with
    | true => simp_all [findEdge, List.find?]
    | false => simp_all [findEdge, List.find?]
  | cons e2 rest ih =>
    by_cases h2 : e2.pairAddress = pa
    · simp [findEdge, List.find?_cons_of_pos, h2]
    · simp only [List.cons_append, findEdge] at ih ⊢
      rw [List.find?_cons_of_neg, List.find?_cons_of_neg]
      · exact ih
      · simpa using h2
      · simpa using h2

theorem updateDirEdge_eq_update (g : ArbitrageGraph) (fromToken toToken : String)
    (dir : Direction) (pair : PairInfo) (ri ro : ℕ) (e0 : Edge)
    (hfind : findEdge ((alookup g.graph fromToken).getD []) pair.pairAddress = some e0) :
    updateDirEdge g fromToken toToken dir pair ri ro =
      { g with graph := (aset g.graph fromToken
          (updateEdgeFields ((alookup g.graph fromToken).getD []) pair.pairAddress
            (calculateEffectiveFee dir pair) ri ro)) } := by
  simp only [updateDirEdge, hfind]

theorem updateDirEdge_eq_push (g : ArbitrageGraph) (fromToken toToken : String)
    (dir : Direction) (pair : PairInfo) (ri ro : ℕ)
    (hfind : findEdge ((alookup g.graph fromToken).getD []) pair.pairAddress = none) :
    updateDirEdge g fromToken toToken dir pair ri ro =
      { g with graph := (aset g.graph fromToken
          (((alookup g.graph fromToken).getD []) ++
            [⟨toToken, pair.pairAddress, dir, calculateEffectiveFee dir pair, ri, ro⟩])) } := by
  simp only [updateDirEdge, hfind]

theorem updateDirEdge_fee (g : ArbitrageGraph) (fromToken toToken : String)
    (dir : Direction) (pair : PairInfo) (ri ro : ℕ) :
    ∃ e, findEdge ((alookup (updateDirEdge g fromToken toToken dir pair ri ro).graph
        fromToken).getD []) pair.pairAddress = some e ∧
      e.fee = calculateEffectiveFee dir pair ∧ e.reserveIn = ri ∧ e.reserveOut = ro := by
  cases hfind : findEdge ((alookup g.graph fromToken).getD []) pair.pairAddress with
  | some e0 =>
    refine ⟨{ e0 with fee := calculateEffectiveFee dir pair, reserveIn := ri, reserveOut := ro },
      ?_, rfl, rfl, rfl⟩
    rw [updateDirEdge_eq_update g fromToken toToken dir pair ri ro e0 hfind]
    simp only
    rw [alookup_aset_self]
    simp only [Option.getD_some]
    rw [findEdge_updateEdgeFields_self, hfind]
    rfl
  | none =>
    refine ⟨⟨toToken, pair.pairAddress, dir, calculateEffectiveFee dir pair, ri, ro⟩,
      ?_, rfl, rfl, rfl⟩
    rw [updateDirEdge_eq_push g fromToken toToken dir pair ri ro hfind]
    simp only
    rw [alookup_aset_self]
    simp only [Option.getD_some]
    rw [findEdge_append_single, hfind]
    simp

theorem updateDirEdge_graph_ne (g : ArbitrageGraph) (fromToken toToken t : String)
    (dir : Direction) (pair : PairInfo) (ri ro : ℕ) (h : t ≠ fromToken) :
    alookup (updateDirEdge g fromToken toToken dir pair ri ro).graph t = alookup g.graph t := by
  cases hfind : findEdge ((alookup g.graph fromToken).getD []) pair.pairAddress with
  | some e0 =>
    rw [updateDirEdge_eq_update g fromToken toToken dir pair ri ro e0 hfind]
    exact alookup_aset_ne _ _ _ _ (fun he => h he.symm)
  | none =>
    rw [updateDirEdge_eq_push g fromToken toToken dir pair ri ro hfind]
    exact alookup_aset_ne _ _ _ _ (fun he => h he.symm)

theorem updateGraphEdges_eq (g : ArbitrageGraph) (p : PairInfo)
    (h0 : p.reserve0 ≠ 0) (h1 : p.reserve1 ≠ 0) :
    updateGraphEdges g p =
      updateDirEdge
        (updateDirEdge
          { g with tokenToHighestReservePair :=
              (updateHighestReserve
                (updateHighestReserve g.tokenToHighestReservePair p.pairAddress p.fee p.token0
                  p.reserve0) p.pairAddress p.fee p.token1 p.reserve1) }
          p.token0 p.token1 Direction.token0ToToken1 p p.reserve0 p.reserve1)
        p.token1 p.token0 Direction.token1ToToken0 p p.reserve1 p.reserve0 := by
  simp only [updateGraphEdges, h0, h1, false_or, or_self, if_false]

theorem addPair_eq (g : ArbitrageGraph) (p : PairInfo)
    (h0 : p.reserve0 ≠ 0) (h1 : p.reserve1 ≠ 0) :
    addPair g p =
      updateGraphEdges
        { g with tokens := (addToken (addToken g.tokens p.token0) p.token1),
                 pairs := (aset g.pairs p.pairAddress p) } p := by
  simp only [addPair, h0, h1, false_or, or_self, if_false]

theorem calculateEffectiveFee_taxed (p : PairInfo) :
    calculateEffectiveFee Direction.token0ToToken1 p =
        (if p.isToken0 then p.fee + p.sellFeeBps else p.fee + p.buyFeeBps) ∧
      calculateEffectiveFee Direction.token1ToToken0 p =
        (if p.isToken0 then p.fee + p.buyFeeBps else p.fee + p.sellFeeBps) := by
  cases h : p.isToken0 with
  | true => simp [calculateEffectiveFee, h]
  | false => simp [calculateEffectiveFee, h]

/-- C6. For every pool registered by `addPair`, the derived edge whose
input token is the taxed token carries effective fee
`fee + sellFeeBps`, and the edge in the opposite direction carries
`fee + buyFeeBps`: flipping the direction swaps which tax rate applies. -/
theorem effective_fee_tax_reversal (g : ArbitrageGraph) (p : PairInfo)
    (h0 : p.reserve0 ≠ 0) (h1 : p.reserve1 ≠ 0) (ht : p.token0 ≠ p.token1) :
    (∃ e, findEdge ((alookup (addPair g p).graph
          (if p.isToken0 then p.token0 else p.token1)).getD []) p.pairAddress = some e ∧
        e.fee = p.fee + p.sellFeeBps) ∧
      (∃ e, findEdge ((alookup (addPair g p).graph
          (if p.isToken0 then p.token1 else p.token0)).getD []) p.pairAddress = some e ∧
        e.fee = p.fee + p.buyFeeBps) := by
  rw [addPair_eq g p h0 h1, updateGraphEdges_eq _ p h0 h1]
  set g1 : ArbitrageGraph :=
    { graph := g.graph,
      tokens := addToken (addToken g.tokens p.token0) p.token1,
      pairs := aset g.pairs p.pairAddress p,
      tokenToHighestReservePair :=
        updateHighestReserve
          (updateHighestReserve g.tokenToHighestReservePair p.pairAddress p.fee p.token0
            p.reserve0) p.pairAddress p.fee p.token1 p.reserve1 } with hg1
  set g2 := updateDirEdge g1 p.token0 p.token1 Direction.token0ToToken1 p
    p.reserve0 p.reserve1 with hg2
  have hfee0 := updateDirEdge_fee g1 p.token0 p.token1 Direction.token0ToToken1 p
    p.reserve0 p.reserve1
  have hfee1 := updateDirEdge_fee g2 p.token1 p.token0 Direction.token1ToToken0 p
    p.reserve1 p.reserve0
  have hpres : alookup (updateDirEdge g2 p.token1 p.token0 Direction.token1ToToken0 p
      p.reserve1 p.reserve0).graph p.token0 = alookup g2.graph p.token0 :=
    updateDirEdge_graph_ne g2 p.token1 p.token0 p.token0 Direction.token1ToToken0 p
      p.reserve1 p.reserve0 ht
  have heff := calculateEffectiveFee_taxed p
  cases htax : p.isToken0 with
  | true =>
    rw [htax] at heff
    simp only [if_pos] at heff ⊢
    constructor
    · obtain ⟨e, he, hef, _, _⟩ := hfee0
      exact ⟨e, by rw [hpres]; exact he, by rw [hef, heff.1]⟩
    · obtain ⟨e, he, hef, _, _⟩ := hfee1
      exact ⟨e, he, by rw [hef, heff.2]⟩
  | false =>
    rw [htax] at heff
    simp only [Bool.false_eq_true, if_neg, not_false_iff] at heff ⊢
    constructor
    · obtain ⟨e, he, hef, _, _⟩ := hfee1
      exact ⟨e, he, by rw [hef, heff.2]⟩
    · obtain ⟨e, he, hef, _, _⟩ := hfee0
      exact ⟨e, by rw [hpres]; exact he, by rw [hef, heff.1]⟩

/-- Witness for C6: the taxed-token1 pool `pair6` yields edges with
effective fees `30 + 60` out of the taxed token `0xB6` and `30 + 40` out
of `0xA6`. -/
theorem effective_fee_tax_reversal_witness :
    (pair6.reserve0 ≠ 0 ∧ pair6.reserve1 ≠ 0 ∧ pair6.token0 ≠ pair6.token1) ∧
      ((∃ e, findEdge ((alookup (addPair emptyGraph pair6).graph
            (if pair6.isToken0 then pair6.token0 else pair6.token1)).getD [])
            pair6.pairAddress = some e ∧ e.fee = pair6.fee + pair6.sellFeeBps) ∧
        (∃ e, findEdge ((alookup (addPair emptyGraph pair6).graph
            (if pair6.isToken0 then pair6.token1 else pair6.token0)).getD [])
            pair6.pairAddress = some e ∧ e.fee = pair6.fee + pair6.buyFeeBps)) :=
  ⟨⟨by decide, by decide, by decide⟩,
    effective_fee_tax_reversal emptyGraph pair6 (by decide) (by decide) (by decide)⟩

/-! ## Zero-reserve updates leave stale edges (C1) -/

/-- C1. Evaluation at the failing input: `addPair` with a zero reserve is
a no-op, but after `updatePairReservesBatch` sets the reserves of the
registered pool `0xP` to `(0, 5)`, the pool map holds the zero reserve
while both adjacency lists still return the pool's stale pre-update edges
(nonzero reserves, so they are tradable and the search will traverse
them). -/
theorem zero_reserve_update_retains_edge :
    addPair emptyGraph ⟨"0xZ", "0xA", "0xB", 0, 7, 30, 0, 0, false⟩ = emptyGraph ∧
      (alookup (runOps opsC1).pairs "0xP").map (fun p => (p.reserve0, p.reserve1)) =
        some (0, 5) ∧
      findEdge ((alookup (runOps opsC1).graph "0xA").getD []) "0xP" =
        some ⟨"0xB", "0xP", Direction.token0ToToken1, 30, 1, 2⟩ ∧
      findEdge ((alookup (runOps opsC1).graph "0xB").getD []) "0xP" =
        some ⟨"0xA", "0xP", Direction.token1ToToken0, 30, 2, 1⟩ := by
  refine ⟨by decide, by decide, by decide, by decide⟩

/-! ## The profit solver can return an infeasible input (C2) -/

theorem newtonStep_done (hops : List HopParams) (st : NewtonState) (h : st.done = true) :
    newtonStep hops st = st := by
  simp [newtonStep, h]

theorem foldl_newton_iterate (hops : List HopParams) :
    ∀ (l : List ℕ) (st : NewtonState),
      l.foldl (fun s _ => newtonStep hops s) st = (newtonStep hops)^[l.length] st
  | [], _ => rfl
  | x :: xs, st => by
    rw [List.foldl_cons, List.length_cons, Function.iterate_succ_apply]
    exact foldl_newton_iterate hops xs (newtonStep hops st)

theorem iterate_newton_done (hops : List HopParams) :
    ∀ (n : ℕ) (st : NewtonState), st.done = true → (newtonStep hops)^[n] st = st
  | 0, _, _ => rfl
  | n + 1, st, h => by
    rw [Function.iterate_succ_apply, newtonStep_done hops st h]
    exact iterate_newton_done hops n st h

theorem cexHops_eq : cexHops = [⟨0, 10 ^ 19, 10 ^ 21⟩, ⟨0, 10 ^ 30, 10 ^ 30⟩] := by
  norm_num [cexHops, hopParams, P1cex, P2cex, List.zip]

theorem cex_newton_first :
    newtonStep [⟨0, 10 ^ 19, 10 ^ 21⟩, ⟨0, 10 ^ 30, 10 ^ 30⟩] ⟨9 * 10 ^ 18, none, 0, false⟩ =
      ⟨cexIterate, some cexProfit, cexIterate, false⟩ := by
  norm_num [newtonStep, calculateProfitQ, runSwaps, swapQ, calculateJacobianQ, jacobianGo,
    swapDerivativeQ, calculateHessianQ, hessianPrecompute, hessianGo, prodExcept,
    swapSecondDerivativeQ, profitGt, List.range_succ, List.getD, max_eq_right, abs,
    cexIterate, cexProfit]

theorem cex_newton_second :
    newtonStep [⟨0, 10 ^ 19, 10 ^ 21⟩, ⟨0, 10 ^ 30, 10 ^ 30⟩]
        ⟨cexIterate, some cexProfit, cexIterate, false⟩ =
      ⟨cexIterate, some cexProfit, cexIterate, true⟩ := by
  norm_num [newtonStep, calculateProfitQ, runSwaps, swapQ, calculateJacobianQ, jacobianGo,
    swapDerivativeQ, calculateHessianQ, hessianPrecompute, hessianGo, prodExcept,
    swapSecondDerivativeQ, profitGt, List.range_succ, List.getD, max_eq_right, abs,
    cexIterate, cexProfit]

/-- C2. Evaluation at the failing input: on the two-hop cycle `cexHops`
with input reserves `10^19` and `10^30`, the Newton solver records the
profit measured at the feasible initial guess `9e18` together with the
next iterate, which overshoots the first hop's input reserve; the returned
optimal input `cexIterate ≈ 1.8157e19` strictly exceeds the minimum input
reserve `10^19`, an infeasible amount (its profit is `-Infinity`). -/
theorem profit_solver_optimal_exceeds_reserve :
    cexHops.map (fun h => h.reserveIn) = [(10 : ℚ) ^ 19, 10 ^ 30] ∧
      (calculateMaxProfit cexHops).2 = cexIterate ∧
      (10 : ℚ) ^ 19 < cexIterate ∧
      calculateProfitQ cexHops cexIterate = none := by
  have hhops := cexHops_eq
  refine ⟨by rw [hhops]; norm_num, ?_, by norm_num [cexIterate], ?_⟩
  · rw [hhops]
    unfold calculateMaxProfit
    rw [foldl_newton_iterate, List.length_range]
    rw [show (100 : ℕ) = 98 + 2 by norm_num, Function.iterate_add_apply]
    have h2 : (newtonStep [⟨0, 10 ^ 19, 10 ^ 21⟩, ⟨0, 10 ^ 30, 10 ^ 30⟩])^[2]
        ⟨9 * 10 ^ 18, none, 0, false⟩ = ⟨cexIterate, some cexProfit, cexIterate, true⟩ := by
      rw [show (2 : ℕ) = 1 + 1 from rfl, Function.iterate_add_apply,
        Function.iterate_one, cex_newton_first, cex_newton_second]
    rw [h2, iterate_newton_done _ _ _ rfl]
  · rw [hhops]
    norm_num [calculateProfitQ, runSwaps, cexIterate]

/-! ## The highest-reserve cache and `findBestPairForToken` (C5) -/

theorem updateHighestReserve_lookup_self (m : List (String × BestPair)) (pa : String)
    (fee : ℕ) (tok : String) (r : ℕ) :
    alookup (updateHighestReserve m pa fee tok r) tok = stepBest (alookup m tok) ⟨pa, r, fee⟩ := by
  unfold updateHighestReserve stepBest
  cases h : alookup m tok with
  | none => simp [alookup_aset_self]
  | some cb =>
    by_cases hr : cb.reserves < r
    · simp [hr, alookup_aset_self]
    · simp [hr, h]

theorem updateHighestReserve_lookup_ne (m : List (String × BestPair)) (pa : String)
    (fee : ℕ) (tok t : String) (r : ℕ) (h : t ≠ tok) :
    alookup (updateHighestReserve m pa fee tok r) t = alookup m t := by
  unfold updateHighestReserve
  cases hm : alookup m tok with
  | none => exact alookup_aset_ne _ _ _ _ (fun he => h he.symm)
  | some cb =>
    by_cases hr : cb.reserves < r
    · simp only [hr, if_pos]
      exact alookup_aset_ne _ _ _ _ (fun he => h he.symm)
    · simp [hr]

theorem updateDirEdge_cache (g : ArbitrageGraph) (fromToken toToken : String)
    (dir : Direction) (pair : PairInfo) (ri ro : ℕ) :
    (updateDirEdge g fromToken toToken dir pair ri ro).tokenToHighestReservePair =
      g.tokenToHighestReservePair := by
  cases hfind : findEdge ((alookup g.graph fromToken).getD []) pair.pairAddress with
  | some e0 => rw [updateDirEdge_eq_update g fromToken toToken dir pair ri ro e0 hfind]
  | none => rw [updateDirEdge_eq_push g fromToken toToken dir pair ri ro hfind]

theorem sidesForToken_append_add (l : List GraphOp) (p : PairInfo) (t : String) :
    sidesForToken (l ++ [GraphOp.add p]) t =
      sidesForToken l t ++
        (if p.reserve0 = 0 ∨ p.reserve1 = 0 then []
         else
           (if p.token0 = t then [⟨p.pairAddress, p.reserve0, p.fee⟩] else []) ++
             (if p.token1 = t then [⟨p.pairAddress, p.reserve1, p.fee⟩] else [])) := by
  unfold sidesForToken
  rw [List.foldl_append]
  by_cases hz : p.reserve0 = 0 ∨ p.reserve1 = 0
  · simp [hz]
  · simp [hz, List.append_assoc]

theorem firstMaxBy_append (xs ys : List BestPair) :
    firstMaxBy (xs ++ ys) = ys.foldl stepBest (firstMaxBy xs) := by
  unfold firstMaxBy
  rw [List.foldl_append]

theorem cache_eq_firstMaxBy (t : String) :
    ∀ ops : List GraphOp, opsAddOnly ops = true →
      alookup (runOps ops).tokenToHighestReservePair t = firstMaxBy (sidesForToken ops t) := by
  intro ops
  induction ops using List.reverseRecOn with
  | nil => intro _; rfl
  | append_singleton l op ih =>
    intro h
    have hl : opsAddOnly l = true := by
      unfold opsAddOnly at h ⊢
      rw [List.all_append, Bool.and_eq_true] at h
      exact h.1
    cases op with
    | update us =>
      exfalso
      unfold opsAddOnly at h
      rw [List.all_append, Bool.and_eq_true] at h
      have h2 := h.2
      simp [List.all_cons] at h2
    | add p =>
      have hrun : runOps (l ++ [GraphOp.add p]) = addPair (runOps l) p := by
        unfold runOps
        rw [List.foldl_append]
        rfl
      rw [hrun, sidesForToken_append_add]
      by_cases hz : p.reserve0 = 0 ∨ p.reserve1 = 0
      · have : addPair (runOps l) p = runOps l := by
          unfold addPair
          simp [hz]
        rw [this, if_pos hz]
        simp [ih hl]
      · push_neg at hz
        rw [addPair_eq _ p hz.1 hz.2, updateGraphEdges_eq _ p hz.1 hz.2]
        rw [if_neg (by simp [hz.1, hz.2])]
        rw [firstMaxBy_append, List.foldl_append]
        have hcache :
            (updateDirEdge
              (updateDirEdge
                { runOps l with
                  tokens := (addToken (addToken (runOps l).tokens p.token0) p.token1),
                  pairs := (aset (runOps l).pairs p.pairAddress p),
                  tokenToHighestReservePair :=
                    (updateHighestReserve
                      (updateHighestReserve (runOps l).tokenToHighestReservePair p.pairAddress
                        p.fee p.token0 p.reserve0) p.pairAddress p.fee p.token1 p.reserve1) }
                p.token0 p.token1 Direction.token0ToToken1 p p.reserve0 p.reserve1)
              p.token1 p.token0 Direction.token1ToToken0 p
              p.reserve1 p.reserve0).tokenToHighestReservePair =
            updateHighestReserve
              (updateHighestReserve (runOps l).tokenToHighestReservePair p.pairAddress p.fee
                p.token0 p.reserve0) p.pairAddress p.fee p.token1 p.reserve1 := by
          rw [updateDirEdge_cache, updateDirEdge_cache]
        rw [hcache]
        by_cases h0 : p.token0 = t
        · by_cases h1 : p.token1 = t
          · rw [if_pos h0, if_pos h1]
            rw [h0] at *
            rw [h1] at *
            rw [updateHighestReserve_lookup_self]
            rw [updateHighestReserve_lookup_self]
            rw [ih hl]
            simp [List.foldl]
          · rw [if_pos h0, if_neg h1]
            rw [updateHighestReserve_lookup_ne _ _ _ _ _ _ (fun he => h1 he.symm)]
            rw [h0] at *
            rw [updateHighestReserve_lookup_self]
            rw [ih hl]
            simp [List.foldl]
        · by_cases h1 : p.token1 = t
          · rw [if_neg h0, if_pos h1]
            rw [h1] at *
            rw [updateHighestReserve_lookup_self]
            rw [updateHighestReserve_lookup_ne _ _ _ _ _ _ (fun he => h0 he.symm)]
            rw [ih hl]
            simp [List.foldl]
          · rw [if_neg h0, if_neg h1]
            rw [updateHighestReserve_lookup_ne _ _ _ _ _ _ (fun he => h1 he.symm)]
            rw [updateHighestReserve_lookup_ne _ _ _ _ _ _ (fun he => h0 he.symm)]
            rw [ih hl]
            simp

/-- C5 (amended). For every graph built by `addPair` calls,
`findBestPairForToken` consults only the single cached highest-reserve
incident side of the token (maximum over all registered nonzero incident
sides, earliest pool winning ties): it returns that pool and its base fee
exactly when the cached pool is not excluded and its recorded reserve is
at least (not strictly greater than) three times the requested amount;
otherwise it returns `none`, with no fallback to any other incident
pool. -/
theorem best_pool_cache_characterization (ops : List GraphOp) (h : opsAddOnly ops = true)
    (t : String) (amountIn : ℕ) (excludePairs : List String) :
    findBestPairForToken (runOps ops) t amountIn excludePairs =
      match firstMaxBy (sidesForToken ops t) with
      | none => none
      | some bp =>
        if bp.pairAddress ∈ excludePairs then none
        else if bp.reserves < amountIn * 3 then none
        else some (bp.pairAddress, bp.fee) := by
  unfold findBestPairForToken
  rw [cache_eq_firstMaxBy t ops h]

/-- Witness for C5 (amended): on the two-pool graph `ops5`, the cached
best pool for `0xT` is `0xQ1`; excluding it yields `none` even though
`0xQ2` qualifies. -/
theorem best_pool_cache_characterization_witness :
    opsAddOnly ops5 = true ∧
      findBestPairForToken (runOps ops5) "0xT" 1 ["0xQ1"] =
        (match firstMaxBy (sidesForToken ops5 "0xT") with
         | none => none
         | some bp =>
           if bp.pairAddress ∈ ["0xQ1"] then none
           else if bp.reserves < 1 * 3 then none
           else some (bp.pairAddress, bp.fee)) :=
  ⟨by decide, best_pool_cache_characterization ops5 (by decide) "0xT" 1 ["0xQ1"]⟩

/-- C5 (counterexample). The claim as stated fails: with the highest-
reserve pool `0xQ1` excluded, the second incident pool `0xQ2` is not in
the exclusion list and its reserve (50) strictly exceeds `3 x 1`, so the
claim requires `some ("0xQ2", _)`; the code returns `none` because only
the single cached best pool is consulted. -/
theorem best_pool_no_fallback_cex :
    findBestPairForToken (runOps ops5) "0xT" 1 ["0xQ1"] = none ∧
      claimQualifies (runOps ops5) "0xT" 1 ["0xQ1"] "0xQ2" := by
  constructor
  · decide
  · exact ⟨p52, by decide, by decide, Or.inl ⟨by decide, by decide⟩⟩

/-! ## Edge uniqueness and the latest-reserve view (C10) -/

theorem edgesWithPair_nil (P : String) : edgesWithPair [] P = [] := rfl

theorem edgesWithPair_append (es fs : List Edge) (P : String) :
    edgesWithPair (es ++ fs) P = edgesWithPair es P ++ edgesWithPair fs P := by
  unfold edgesWithPair
  exact List.filter_append _ _

theorem edgesWithPair_single (e : Edge) (P : String) :
    edgesWithPair [e] P = if e.pairAddress = P then [e] else [] := by
  unfold edgesWithPair
  by_cases h : e.pairAddress = P
  · simp [List.filter, h]
  · simp [List.filter, h]

theorem edgesWithPair_updateEdgeFields_self (pa : String) (f ri ro : ℕ) :
    ∀ es : List Edge,
      edgesWithPair (updateEdgeFields es pa f ri ro) pa =
        match edgesWithPair es pa with
        | [] => []
        | e :: r => { e with fee := f, reserveIn := ri, reserveOut := ro } :: r := by
  intro es
  induction es with
  | nil => rfl
  | cons e rest ih =>
    by_cases he : e.pairAddress = pa
    · simp only [updateEdgeFields, he, if_pos]
      unfold edgesWithPair at ih ⊢
      simp [List.filter, he]
    · simp only [updateEdgeFields, he, if_neg, not_false_iff]
      unfold edgesWithPair at ih ⊢
      simp only [List.filter, he, decide_eq_true_eq, if_neg, not_false_iff,
        decide_eq_false, Bool.false_eq_true]
      exact ih

theorem edgesWithPair_updateEdgeFields_ne (pa P : String) (f ri ro : ℕ) (hne : pa ≠ P) :
    ∀ es : List Edge,
      edgesWithPair (updateEdgeFields es pa f ri ro) P = edgesWithPair es P := by
  intro es
  induction es with
  | nil => rfl
  | cons e rest ih =>
    by_cases he : e.pairAddress = pa
    · unfold updateEdgeFields
      simp only [he, if_pos]
      unfold edgesWithPair
      rw [List.filter_cons, List.filter_cons]
      have hP : ¬ e.pairAddress = P := fun h2 => hne (he ▸ h2)
      simp [hP, hne]
    · unfold updateEdgeFields
      simp only [he, if_neg, not_false_iff]
      unfold edgesWithPair at ih ⊢
      rw [List.filter_cons, List.filter_cons]
      by_cases heP : e.pairAddress = P
      · rw [if_pos (by simpa using heP), if_pos (by simpa using heP), ih]
      · rw [if_neg (by simpa using heP), if_neg (by simpa using heP), ih]

theorem findEdge_eq_head_view (P : String) :
    ∀ es : List Edge, findEdge es P = (edgesWithPair es P).head? := by
  intro es
  induction es with
  | nil => rfl
  | cons e rest ih =>
    by_cases he : e.pairAddress = P
    · unfold findEdge edgesWithPair
      rw [List.find?_cons_of_pos _ (by simpa using he), List.filter_cons,
        if_pos (by simpa using he)]
      rfl
    · unfold findEdge edgesWithPair at ih ⊢
      rw [List.find?_cons_of_neg _ (by simpa using he), List.filter_cons,
        if_neg (by simpa using he)]
      exact ih

/-- Effect of one `updateDirEdge` on the view of its own pool at the
source token. -/
theorem updateDirEdge_view_self (g : ArbitrageGraph) (fromToken toToken : String)
    (dir : Direction) (pair : PairInfo) (ri ro : ℕ) :
    edgesWithPair ((alookup (updateDirEdge g fromToken toToken dir pair ri ro).graph
        fromToken).getD []) pair.pairAddress =
      match edgesWithPair ((alookup g.graph fromToken).getD []) pair.pairAddress with
      | [] => [⟨toToken, pair.pairAddress, dir, calculateEffectiveFee dir pair, ri, ro⟩]
      | e :: r =>
        { e with fee := calculateEffectiveFee dir pair, reserveIn := ri, reserveOut := ro } :: r := by
  cases hview : edgesWithPair ((alookup g.graph fromToken).getD []) pair.pairAddress with
  | nil =>
    have hfind : findEdge ((alookup g.graph fromToken).getD []) pair.pairAddress = none := by
      rw [findEdge_eq_head_view, hview]
      rfl
    rw [updateDirEdge_eq_push g fromToken toToken dir pair ri ro hfind]
    simp only
    rw [alookup_aset_self]
    simp only [Option.getD_some]
    rw [edgesWithPair_append, hview, edgesWithPair_single]
    simp
  | cons e r =>
    have hfind : findEdge ((alookup g.graph fromToken).getD []) pair.pairAddress = some e := by
      rw [findEdge_eq_head_view, hview]
      rfl
    rw [updateDirEdge_eq_update g fromToken toToken dir pair ri ro e hfind]
    simp only
    rw [alookup_aset_self]
    simp only [Option.getD_some]
    rw [edgesWithPair_updateEdgeFields_self, hview]

/-- One `updateDirEdge` does not disturb the view of any other pool, at
any token. -/
theorem updateDirEdge_view_ne (g : ArbitrageGraph) (fromToken toToken : String)
    (dir : Direction) (pair : PairInfo) (ri ro : ℕ) (P : String)
    (hne : pair.pairAddress ≠ P) (t : String) :
    edgesWithPair ((alookup (updateDirEdge g fromToken toToken dir pair ri ro).graph t).getD [])
        P = edgesWithPair ((alookup g.graph t).getD []) P := by
  by_cases ht : t = fromToken
  · subst ht
    cases hfind : findEdge ((alookup g.graph t).getD []) pair.pairAddress with
    | some e0 =>
      rw [updateDirEdge_eq_update g t toToken dir pair ri ro e0 hfind]
      simp only
      rw [alookup_aset_self]
      simp only [Option.getD_some]
      exact edgesWithPair_updateEdgeFields_ne _ _ _ _ _ hne _
    | none =>
      rw [updateDirEdge_eq_push g t toToken dir pair ri ro hfind]
      simp only
      rw [alookup_aset_self]
      simp only [Option.getD_some]
      rw [edgesWithPair_append, edgesWithPair_single]
      simp [hne]
  · rw [updateDirEdge_graph_ne g fromToken toToken t dir pair ri ro ht]

/-- `updateDirEdge` at a different source token leaves a token's view of
any pool unchanged. -/
theorem updateDirEdge_view_other_token (g : ArbitrageGraph) (fromToken toToken : String)
    (dir : Direction) (pair : PairInfo) (ri ro : ℕ) (P t : String) (ht : t ≠ fromToken) :
    edgesWithPair ((alookup (updateDirEdge g fromToken toToken dir pair ri ro).graph t).getD [])
        P = edgesWithPair ((alookup g.graph t).getD []) P := by
  rw [updateDirEdge_graph_ne g fromToken toToken t dir pair ri ro ht]

theorem updateDirEdge_pairs (g : ArbitrageGraph) (fromToken toToken : String)
    (dir : Direction) (pair : PairInfo) (ri ro : ℕ) :
    (updateDirEdge g fromToken toToken dir pair ri ro).pairs = g.pairs := by
  cases hfind : findEdge ((alookup g.graph fromToken).getD []) pair.pairAddress with
  | some e0 => rw [updateDirEdge_eq_update g fromToken toToken dir pair ri ro e0 hfind]
  | none => rw [updateDirEdge_eq_push g fromToken toToken dir pair ri ro hfind]

theorem updateGraphEdges_pairs (g : ArbitrageGraph) (p : PairInfo) :
    (updateGraphEdges g p).pairs = g.pairs := by
  by_cases hz : p.reserve0 = 0 ∨ p.reserve1 = 0
  · unfold updateGraphEdges
    simp [hz]
  · push_neg at hz
    rw [updateGraphEdges_eq g p hz.1 hz.2, updateDirEdge_pairs, updateDirEdge_pairs]

/-- `updateGraphEdges` does not disturb the view of any other pool. -/
theorem updateGraphEdges_view_ne (g : ArbitrageGraph) (p : PairInfo) (P : String)
    (hne : p.pairAddress ≠ P) (t : String) :
    edgesWithPair ((alookup (updateGraphEdges g p).graph t).getD []) P =
      edgesWithPair ((alookup g.graph t).getD []) P := by
  by_cases hz : p.reserve0 = 0 ∨ p.reserve1 = 0
  · unfold updateGraphEdges
    simp [hz]
  · push_neg at hz
    rw [updateGraphEdges_eq g p hz.1 hz.2]
    rw [updateDirEdge_view_ne _ _ _ _ _ _ _ _ hne, updateDirEdge_view_ne _ _ _ _ _ _ _ _ hne]

theorem getLast?_cons_eq {α : Type} (a : α) (l : List α) :
    (a :: l).getLast? =
      match l.getLast? with
      | none => some a
      | some b => some b := by
  cases l with
  | nil => rfl
  | cons b l2 =>
    rw [List.getLast?_cons_cons]
    have hne : (b :: l2) ≠ [] := by simp
    obtain ⟨y, hy⟩ := Option.isSome_iff_exists.mp (List.getLast?_isSome.mpr hne)
    rw [hy]

theorem reserveWrites_lookup (P : String) :
    ∀ (us : List ReserveUpdate) (pairs : List (String × PairInfo)) (touched : List String),
      alookup (us.foldl reserveWriteStep (pairs, touched)).1 P =
        match alookup pairs P with
        | none => none
        | some r =>
          match (us.filter (fun u => decide (u.pairAddress = P))).getLast? with
          | none => some r
          | some u => some { r with reserve0 := u.reserve0, reserve1 := u.reserve1 } := by
  intro us
  induction us with
  | nil =>
    intro pairs touched
    cases h : alookup pairs P <;> simp [List.foldl, h]
  | cons u us ih =>
    intro pairs touched
    rw [List.foldl_cons]
    by_cases hu : u.pairAddress = P
    · cases hP : alookup pairs P with
      | none =>
        have hstep : reserveWriteStep (pairs, touched) u = (pairs, touched) := by
          unfold reserveWriteStep
          rw [hu, hP]
        rw [hstep, ih, hP]
      | some r =>
        have hstep : reserveWriteStep (pairs, touched) u =
            (aset pairs P { r with reserve0 := u.reserve0, reserve1 := u.reserve1 },
             if P ∈ touched then touched else touched ++ [P]) := by
          unfold reserveWriteStep
          rw [hu, hP]
        rw [hstep, ih, alookup_aset_self]
        rw [List.filter_cons, if_pos (by simpa using hu), getLast?_cons_eq]
        cases hrest : (us.filter (fun u2 => decide (u2.pairAddress = P))).getLast? with
        | none => rfl
        | some u2 => rfl
    · have hfilter : (u :: us).filter (fun u2 => decide (u2.pairAddress = P)) =
          us.filter (fun u2 => decide (u2.pairAddress = P)) := by
        rw [List.filter_cons, if_neg (by simpa using hu)]
      cases hq : alookup pairs u.pairAddress with
      | none =>
        have hstep : reserveWriteStep (pairs, touched) u = (pairs, touched) := by
          unfold reserveWriteStep
          rw [hq]
        rw [hstep, ih, hfilter]
      | some q =>
        have hstep : reserveWriteStep (pairs, touched) u =
            (aset pairs u.pairAddress { q with reserve0 := u.reserve0, reserve1 := u.reserve1 },
             if u.pairAddress ∈ touched then touched else touched ++ [u.pairAddress]) := by
          unfold reserveWriteStep
          rw [hq]
        rw [hstep, ih, alookup_aset_ne _ _ _ _ hu, hfilter]

theorem reserveWrites_touched (P : String) :
    ∀ (us : List ReserveUpdate) (pairs : List (String × PairInfo)) (touched : List String),
      (P ∈ (us.foldl reserveWriteStep (pairs, touched)).2 ↔
        P ∈ touched ∨ ((alookup pairs P).isSome ∧ ∃ u ∈ us, u.pairAddress = P)) := by
  intro us
  induction us with
  | nil =>
    intro pairs touched
    simp [List.foldl]
  | cons u us ih =>
    intro pairs touched
    rw [List.foldl_cons]
    cases hq : alookup pairs u.pairAddress with
    | none =>
      have hstep : reserveWriteStep (pairs, touched) u = (pairs, touched) := by
        unfold reserveWriteStep
        rw [hq]
      rw [hstep, ih]
      constructor
      · rintro (h | ⟨h1, u2, h2, h3⟩)
        · exact Or.inl h
        · exact Or.inr ⟨h1, u2, List.mem_cons_of_mem _ h2, h3⟩
      · rintro (h | ⟨h1, u2, h2, h3⟩)
        · exact Or.inl h
        · rcases List.mem_cons.mp h2 with h4 | h4
          · subst h4
            rw [← h3, hq] at h1
            simp at h1
          · exact Or.inr ⟨h1, u2, h4, h3⟩
    | some q =>
      have hstep : reserveWriteStep (pairs, touched) u =
          (aset pairs u.pairAddress { q with reserve0 := u.reserve0, reserve1 := u.reserve1 },
           if u.pairAddress ∈ touched then touched else touched ++ [u.pairAddress]) := by
        unfold reserveWriteStep
        rw [hq]
      rw [hstep, ih]
      by_cases huP : u.pairAddress = P
      · subst huP
        rw [alookup_aset_self]
        constructor
        · intro h
          exact Or.inr ⟨by rw [hq]; rfl, u, List.mem_cons_self _ _, rfl⟩
        · intro h
          by_cases ht : u.pairAddress ∈ touched
          · simp only [ht, if_pos]
            exact Or.inl trivial
          · simp only [ht, if_neg, not_false_iff]
            exact Or.inl (List.mem_append_right _ (List.mem_singleton.mpr rfl))
      · rw [alookup_aset_ne _ _ _ _ huP]
        have hmem : (P ∈ if u.pairAddress ∈ touched then touched
            else touched ++ [u.pairAddress]) ↔ P ∈ touched := by
          by_cases ht : u.pairAddress ∈ touched
          · simp [ht]
          · simp only [ht, if_neg, not_false_iff, List.mem_append, List.mem_singleton]
            constructor
            · rintro (h | h)
              · exact h
              · exact absurd h.symm huP
            · exact Or.inl
        rw [hmem]
        constructor
        · rintro (h | ⟨h1, u2, h2, h3⟩)
          · exact Or.inl h
          · exact Or.inr ⟨h1, u2, List.mem_cons_of_mem _ h2, h3⟩
        · rintro (h | ⟨h1, u2, h2, h3⟩)
          · exact Or.inl h
          · rcases List.mem_cons.mp h2 with h4 | h4
            · subst h4
              exact absurd h3 huP
            · exact Or.inr ⟨h1, u2, h4, h3⟩

theorem reserveWrites_touched_nodup :
    ∀ (us : List ReserveUpdate) (pairs : List (String × PairInfo)) (touched : List String),
      touched.Nodup → (us.foldl reserveWriteStep (pairs, touched)).2.Nodup := by
  intro us
  induction us with
  | nil => intro pairs touched h; exact h
  | cons u us ih =>
    intro pairs touched h
    rw [List.foldl_cons]
    cases hq : alookup pairs u.pairAddress with
    | none =>
      have hstep : reserveWriteStep (pairs, touched) u = (pairs, touched) := by
        unfold reserveWriteStep
        rw [hq]
      rw [hstep]
      exact ih _ _ h
    | some q =>
      have hstep : reserveWriteStep (pairs, touched) u =
          (aset pairs u.pairAddress { q with reserve0 := u.reserve0, reserve1 := u.reserve1 },
           if u.pairAddress ∈ touched then touched else touched ++ [u.pairAddress]) := by
        unfold reserveWriteStep
        rw [hq]
      rw [hstep]
      refine ih _ _ ?_
      by_cases ht : u.pairAddress ∈ touched
      · simpa [ht] using h
      · simp only [ht, if_neg, not_false_iff]
        rw [List.nodup_append]
        refine ⟨h, List.nodup_singleton _, ?_⟩
        intro x hx hx2
        rw [List.mem_singleton] at hx2
        exact ht (hx2 ▸ hx)

theorem foldl_batchEdgeStep_pairs :
    ∀ (addrs : List String) (g : ArbitrageGraph),
      (addrs.foldl batchEdgeStep g).pairs = g.pairs := by
  intro addrs
  induction addrs with
  | nil => intro g; rfl
  | cons a addrs ih =>
    intro g
    rw [List.foldl_cons, ih]
    unfold batchEdgeStep
    cases hq : alookup g.pairs a with
    | none => rfl
    | some q => exact updateGraphEdges_pairs g q

theorem foldl_batchEdgeStep_view_ne (P : String) :
    ∀ (addrs : List String) (g : ArbitrageGraph),
      (∀ k r, alookup g.pairs k = some r → r.pairAddress = k) → P ∉ addrs →
      ∀ t, edgesWithPair ((alookup (addrs.foldl batchEdgeStep g).graph t).getD []) P =
        edgesWithPair ((alookup g.graph t).getD []) P := by
  intro addrs
  induction addrs with
  | nil => intro g _ _ t; rfl
  | cons a addrs ih =>
    intro g hctx hP t
    rw [List.foldl_cons]
    have haP : a ≠ P := fun h => hP (h ▸ List.mem_cons_self _ _)
    have hP2 : P ∉ addrs := fun h => hP (List.mem_cons_of_mem _ h)
    cases hq : alookup g.pairs a with
    | none =>
      have hstep : batchEdgeStep g a = g := by
        unfold batchEdgeStep
        rw [hq]
      rw [hstep]
      exact ih g hctx hP2 t
    | some q =>
      have hstep : batchEdgeStep g a = updateGraphEdges g q := by
        unfold batchEdgeStep
        rw [hq]
      rw [hstep]
      have hqa : q.pairAddress = a := hctx a q hq
      have hctx2 : ∀ k r, alookup (updateGraphEdges g q).pairs k = some r →
          r.pairAddress = k := by
        rw [updateGraphEdges_pairs]
        exact hctx
      rw [ih (updateGraphEdges g q) hctx2 hP2 t]
      exact updateGraphEdges_view_ne g q P (fun h => haP (hqa ▸ h)) t

/-- `updateGraphEdges` on a pool with no edges yet: both directional edges
are created, nothing else. -/
theorem updateGraphEdges_view_fresh (g : ArbitrageGraph) (p : PairInfo)
    (h0 : p.reserve0 ≠ 0) (h1 : p.reserve1 ≠ 0) (htok : p.token0 ≠ p.token1)
    (hA : ∀ t, edgesWithPair ((alookup g.graph t).getD []) p.pairAddress = []) :
    edgesWithPair ((alookup (updateGraphEdges g p).graph p.token0).getD []) p.pairAddress =
        [expectedEdge0 p] ∧
      edgesWithPair ((alookup (updateGraphEdges g p).graph p.token1).getD []) p.pairAddress =
        [expectedEdge1 p] ∧
      ∀ t, t ≠ p.token0 → t ≠ p.token1 →
        edgesWithPair ((alookup (updateGraphEdges g p).graph t).getD []) p.pairAddress = [] := by
  rw [updateGraphEdges_eq g p h0 h1]
  set g1 : ArbitrageGraph :=
    { g with tokenToHighestReservePair :=
        (updateHighestReserve
          (updateHighestReserve g.tokenToHighestReservePair p.pairAddress p.fee p.token0
            p.reserve0) p.pairAddress p.fee p.token1 p.reserve1) } with hg1
  have hA1 : ∀ t, edgesWithPair ((alookup g1.graph t).getD []) p.pairAddress = [] := hA
  set g2 := updateDirEdge g1 p.token0 p.token1 Direction.token0ToToken1 p
    p.reserve0 p.reserve1 with hg2
  have hv0 : edgesWithPair ((alookup g2.graph p.token0).getD []) p.pairAddress =
      [expectedEdge0 p] := by
    rw [hg2, updateDirEdge_view_self, hA1 p.token0]
    rfl
  have hvother : ∀ t, t ≠ p.token0 →
      edgesWithPair ((alookup g2.graph t).getD []) p.pairAddress = [] := by
    intro t ht
    rw [hg2, updateDirEdge_view_other_token _ _ _ _ _ _ _ _ _ ht, hA1 t]
  refine ⟨?_, ?_, ?_⟩
  · rw [updateDirEdge_view_other_token _ _ _ _ _ _ _ _ _ htok]
    exact hv0
  · rw [updateDirEdge_view_self, hvother p.token1 (fun h => htok h.symm)]
    rfl
  · intro t ht0 ht1
    rw [updateDirEdge_view_other_token _ _ _ _ _ _ _ _ _ ht1]
    exact hvother t ht0

/-- `updateGraphEdges` on a pool whose two edges already exist (derived
from an older record `q` of the same pool with the same tokens): both
edges are updated in place to the new record, nothing else changes. -/
theorem updateGraphEdges_view_update (g : ArbitrageGraph) (p q : PairInfo)
    (h0 : p.reserve0 ≠ 0) (h1 : p.reserve1 ≠ 0) (htok : p.token0 ≠ p.token1)
    (hqa : q.pairAddress = p.pairAddress) (hq0 : q.token0 = p.token0)
    (hq1 : q.token1 = p.token1)
    (hA : edgesWithPair ((alookup g.graph p.token0).getD []) p.pairAddress = [expectedEdge0 q])
    (hB : edgesWithPair ((alookup g.graph p.token1).getD []) p.pairAddress = [expectedEdge1 q])
    (hC : ∀ t, t ≠ p.token0 → t ≠ p.token1 →
      edgesWithPair ((alookup g.graph t).getD []) p.pairAddress = []) :
    edgesWithPair ((alookup (updateGraphEdges g p).graph p.token0).getD []) p.pairAddress =
        [expectedEdge0 p] ∧
      edgesWithPair ((alookup (updateGraphEdges g p).graph p.token1).getD []) p.pairAddress =
        [expectedEdge1 p] ∧
      ∀ t, t ≠ p.token0 → t ≠ p.token1 →
        edgesWithPair ((alookup (updateGraphEdges g p).graph t).getD []) p.pairAddress = [] := by
  rw [updateGraphEdges_eq g p h0 h1]
  set g1 : ArbitrageGraph :=
    { g with tokenToHighestReservePair :=
        (updateHighestReserve
          (updateHighestReserve g.tokenToHighestReservePair p.pairAddress p.fee p.token0
            p.reserve0) p.pairAddress p.fee p.token1 p.reserve1) } with hg1
  have hA1 : edgesWithPair ((alookup g1.graph p.token0).getD []) p.pairAddress =
      [expectedEdge0 q] := hA
  have hB1 : edgesWithPair ((alookup g1.graph p.token1).getD []) p.pairAddress =
      [expectedEdge1 q] := hB
  have hupd0 :
      ({ expectedEdge0 q with
          fee := calculateEffectiveFee Direction.token0ToToken1 p,
          reserveIn := p.reserve0,
          reserveOut := p.reserve1 } : Edge) = expectedEdge0 p := by
    unfold expectedEdge0
    simp [hqa, hq1]
  have hupd1 :
      ({ expectedEdge1 q with
          fee := calculateEffectiveFee Direction.token1ToToken0 p,
          reserveIn := p.reserve1,
          reserveOut := p.reserve0 } : Edge) = expectedEdge1 p := by
    unfold expectedEdge1
    simp [hqa, hq0]
  set g2 := updateDirEdge g1 p.token0 p.token1 Direction.token0ToToken1 p
    p.reserve0 p.reserve1 with hg2
  have hv0 : edgesWithPair ((alookup g2.graph p.token0).getD []) p.pairAddress =
      [expectedEdge0 p] := by
    rw [hg2, updateDirEdge_view_self, hA1]
    simp only
    rw [hupd0]
  have hvother : ∀ t, t ≠ p.token0 →
      edgesWithPair ((alookup g2.graph t).getD []) p.pairAddress =
        edgesWithPair ((alookup g1.graph t).getD []) p.pairAddress := by
    intro t ht
    rw [hg2, updateDirEdge_view_other_token _ _ _ _ _ _ _ _ _ ht]
  refine ⟨?_, ?_, ?_⟩
  · rw [updateDirEdge_view_other_token _ _ _ _ _ _ _ _ _ htok]
    exact hv0
  · rw [updateDirEdge_view_self, hvother p.token1 (fun h => htok h.symm), hB1]
    simp only
    rw [hupd1]
  · intro t ht0 ht1
    rw [updateDirEdge_view_other_token _ _ _ _ _ _ _ _ _ ht1, hvother t ht0]
    exact hC t ht0 ht1

theorem opsCoherent_of_append (l l2 : List GraphOp)
    (h : opsCoherent (l ++ l2) = true) : opsCoherent l = true := by
  unfold opsCoherent at h ⊢
  rw [List.all_eq_true] at h ⊢
  intro op hop
  have h2 := h op (List.mem_append_left _ hop)
  cases op with
  | update us => exact h2
  | add p =>
    simp only at h2 ⊢
    rw [Bool.and_eq_true] at h2 ⊢
    refine ⟨h2.1, ?_⟩
    rw [List.all_eq_true] at h2 ⊢
    intro op2 hop2
    exact h2.2 op2 (List.mem_append_left _ hop2)

theorem opsCoherent_tokens_ne (ops : List GraphOp) (h : opsCoherent ops = true)
    (p : PairInfo) (hp : GraphOp.add p ∈ ops) : p.token0 ≠ p.token1 := by
  unfold opsCoherent at h
  rw [List.all_eq_true] at h
  have h2 := h _ hp
  simp only at h2
  rw [Bool.and_eq_true] at h2
  have h3 := h2.1
  intro he
  rw [he] at h3
  simp at h3

theorem opsCoherent_same_tokens (ops : List GraphOp) (h : opsCoherent ops = true)
    (p q : PairInfo) (hp : GraphOp.add p ∈ ops) (hq : GraphOp.add q ∈ ops)
    (hpq : p.pairAddress = q.pairAddress) : p.token0 = q.token0 ∧ p.token1 = q.token1 := by
  unfold opsCoherent at h
  rw [List.all_eq_true] at h
  have h2 := h _ hp
  simp only at h2
  rw [Bool.and_eq_true] at h2
  have h3 := List.all_eq_true.mp h2.2 _ hq
  simp only [hpq] at h3
  simp at h3
  exact h3

theorem trackConsistent_mono (ops l2 : List GraphOp) (P : String) (info : PairInfo)
    (h : trackConsistent ops P info) : trackConsistent (ops ++ l2) P info := by
  obtain ⟨h1, h2, a, ha, ha2, ha3, ha4⟩ := h
  exact ⟨h1, h2, a, List.mem_append_left _ ha, ha2, ha3, ha4⟩

theorem runOps_append_add (l : List GraphOp) (p : PairInfo) :
    runOps (l ++ [GraphOp.add p]) = addPair (runOps l) p := by
  unfold runOps
  rw [List.foldl_append]
  rfl

theorem runOps_append_update (l : List GraphOp) (us : List ReserveUpdate) :
    runOps (l ++ [GraphOp.update us]) = updatePairReservesBatch (runOps l) us := by
  unfold runOps
  rw [List.foldl_append]
  rfl

theorem specTrack_append (l : List GraphOp) (op : GraphOp) (P : String) :
    specTrack (l ++ [op]) P = trackOp P (specTrack l P) op := by
  unfold specTrack
  rw [List.foldl_append]
  rfl

theorem updatePairReservesBatch_eq (g : ArbitrageGraph) (us : List ReserveUpdate) :
    updatePairReservesBatch g us =
      (applyReserveWrites g.pairs us).2.foldl batchEdgeStep
        { g with pairs := (applyReserveWrites g.pairs us).1 } := rfl

/-- Inductive step of the abstraction theorem for an `addPair` call. -/
theorem track_step_add (l : List GraphOp) (p : PairInfo)
    (hco : opsCoherent (l ++ [GraphOp.add p]) = true)
    (ihL : graphMatchesTrack l (runOps l)) :
    graphMatchesTrack (l ++ [GraphOp.add p]) (runOps (l ++ [GraphOp.add p])) := by
  intro P
  obtain ⟨i1, i2, i3, i4⟩ := ihL P
  have hpadd : GraphOp.add p ∈ l ++ [GraphOp.add p] :=
    List.mem_append_right _ (List.mem_singleton.mpr rfl)
  rw [runOps_append_add, specTrack_append]
  by_cases hz : p.reserve0 = 0 ∨ p.reserve1 = 0
  · have hrun : addPair (runOps l) p = runOps l := by
      unfold addPair
      simp [hz]
    have htr : trackOp P (specTrack l P) (GraphOp.add p) = specTrack l P := by
      unfold trackOp
      simp [hz]
    rw [hrun, htr]
    exact ⟨i1, fun r hr => trackConsistent_mono l _ P r (i2 r hr),
      fun q hq => trackConsistent_mono l _ P q (i3 q hq), i4⟩
  · push_neg at hz
    have htok : p.token0 ≠ p.token1 := opsCoherent_tokens_ne _ hco p hpadd
    rw [addPair_eq _ p hz.1 hz.2]
    set g1 : ArbitrageGraph :=
      { runOps l with
        tokens := (addToken (addToken (runOps l).tokens p.token0) p.token1),
        pairs := (aset (runOps l).pairs p.pairAddress p) } with hg1
    have hg1graph : g1.graph = (runOps l).graph := rfl
    have hpairs : (updateGraphEdges g1 p).pairs = aset (runOps l).pairs p.pairAddress p := by
      rw [updateGraphEdges_pairs]
    by_cases hP : p.pairAddress = P
    · have htr : trackOp P (specTrack l P) (GraphOp.add p) = ⟨some p, some p⟩ := by
        unfold trackOp
        simp [hz.1, hz.2, hP]
      rw [htr]
      have hcons : trackConsistent (l ++ [GraphOp.add p]) P p :=
        ⟨hP, htok, p, hpadd, hP, rfl, rfl⟩
      refine ⟨?_, fun r hr => by rw [(Option.some_inj).mp hr] at hcons ⊢; exact hcons,
        fun q hq => by rw [(Option.some_inj).mp hq] at hcons ⊢; exact hcons, ?_⟩
      · rw [hpairs, hP, alookup_aset_self]
      · simp only
        revert i4
        cases hla : (specTrack l P).lastApplied with
        | none =>
          intro i4
          have hA : ∀ t, edgesWithPair ((alookup g1.graph t).getD []) p.pairAddress = [] := by
            intro t
            rw [hg1graph, hP]
            exact i4 t
          have hres := updateGraphEdges_view_fresh g1 p hz.1 hz.2 htok hA
          rw [hP] at hres
          exact ⟨hres.1, hres.2.1, hres.2.2⟩
        | some q =>
          intro i4
          obtain ⟨hqa, hqtok, a, ha, haP, ha0, ha1⟩ := i3 q hla
          have hq0 : q.token0 = p.token0 := by
            have := opsCoherent_same_tokens _ hco a p (List.mem_append_left _ ha) hpadd
              (by rw [haP, hP])
            rw [← ha0, this.1]
          have hq1 : q.token1 = p.token1 := by
            have := opsCoherent_same_tokens _ hco a p (List.mem_append_left _ ha) hpadd
              (by rw [haP, hP])
            rw [← ha1, this.2]
          have hA : edgesWithPair ((alookup g1.graph p.token0).getD []) p.pairAddress =
              [expectedEdge0 q] := by
            rw [hg1graph, hP, ← hq0]
            exact i4.1
          have hB : edgesWithPair ((alookup g1.graph p.token1).getD []) p.pairAddress =
              [expectedEdge1 q] := by
            rw [hg1graph, hP, ← hq1]
            exact i4.2.1
          have hC : ∀ t, t ≠ p.token0 → t ≠ p.token1 →
              edgesWithPair ((alookup g1.graph t).getD []) p.pairAddress = [] := by
            intro t ht0 ht1
            rw [hg1graph, hP]
            exact i4.2.2 t (hq0 ▸ ht0) (hq1 ▸ ht1)
          have hres := updateGraphEdges_view_update g1 p q hz.1 hz.2 htok
            (by rw [hqa, hP]) hq0 hq1 hA hB hC
          rw [hP] at hres
          exact ⟨hres.1, hres.2.1, hres.2.2⟩
    · have htr : trackOp P (specTrack l P) (GraphOp.add p) = specTrack l P := by
        unfold trackOp
        simp [hz.1, hz.2, hP]
      rw [htr]
      refine ⟨?_, fun r hr => trackConsistent_mono l _ P r (i2 r hr),
        fun q hq => trackConsistent_mono l _ P q (i3 q hq), ?_⟩
      · rw [hpairs, alookup_aset_ne _ _ _ _ hP]
        exact i1
      · have hview : ∀ t, edgesWithPair ((alookup (updateGraphEdges g1 p).graph t).getD []) P =
            edgesWithPair ((alookup (runOps l).graph t).getD []) P := by
          intro t
          rw [updateGraphEdges_view_ne g1 p P hP t, hg1graph]
        revert i4
        cases hla : (specTrack l P).lastApplied with
        | none =>
          intro i4 t
          rw [hview t]
          exact i4 t
        | some q =>
          intro i4
          exact ⟨by rw [hview]; exact i4.1, by rw [hview]; exact i4.2.1,
            fun t ht0 ht1 => by rw [hview]; exact i4.2.2 t ht0 ht1⟩

theorem getLast?_none_eq_nil {α : Type} {l : List α} (h : l.getLast? = none) : l = [] := by
  cases l with
  | nil => rfl
  | cons a l2 =>
    exfalso
    have h2 : (a :: l2).getLast?.isSome := List.getLast?_isSome.mpr (by simp)
    rw [h] at h2
    simp at h2

/-- Inductive step of the abstraction theorem for a batched reserve
update. -/
theorem track_step_update (l : List GraphOp) (us : List ReserveUpdate)
    (hco : opsCoherent (l ++ [GraphOp.update us]) = true)
    (ihL : graphMatchesTrack l (runOps l)) :
    graphMatchesTrack (l ++ [GraphOp.update us]) (runOps (l ++ [GraphOp.update us])) := by
  have hcoL := opsCoherent_of_append l [GraphOp.update us] hco
  intro P
  obtain ⟨i1, i2, i3, i4⟩ := ihL P
  rw [runOps_append_update, specTrack_append, updatePairReservesBatch_eq]
  set g := runOps l with hg
  have hctx0 : ∀ k r, alookup g.pairs k = some r → r.pairAddress = k := by
    intro k r hkr
    obtain ⟨j1, j2, _, _⟩ := ihL k
    rw [j1] at hkr
    exact (j2 r hkr).1
  have hwr : ∀ k, alookup (applyReserveWrites g.pairs us).1 k =
      match alookup g.pairs k with
      | none => none
      | some r =>
        match (us.filter (fun u => decide (u.pairAddress = k))).getLast? with
        | none => some r
        | some u => some { r with reserve0 := u.reserve0, reserve1 := u.reserve1 } :=
    fun k => reserveWrites_lookup k us g.pairs []
  have hctx1 : ∀ k r, alookup (applyReserveWrites g.pairs us).1 k = some r →
      r.pairAddress = k := by
    intro k r hkr
    rw [hwr k] at hkr
    cases hk0 : alookup g.pairs k with
    | none => rw [hk0] at hkr; simp at hkr
    | some r0 =>
      rw [hk0] at hkr
      cases hlast : ((us.filter (fun u => decide (u.pairAddress = k))).getLast?) with
      | none =>
        rw [hlast] at hkr
        simp only [Option.some_inj] at hkr
        rw [← hkr]
        exact hctx0 k r0 hk0
      | some u =>
        rw [hlast] at hkr
        simp only [Option.some_inj] at hkr
        rw [← hkr]
        exact hctx0 k r0 hk0
  have hmemP : P ∈ (applyReserveWrites g.pairs us).2 ↔
      (alookup g.pairs P).isSome ∧ ∃ u ∈ us, u.pairAddress = P := by
    have h := reserveWrites_touched P us g.pairs []
    simpa using h
  have hnodup : (applyReserveWrites g.pairs us).2.Nodup :=
    reserveWrites_touched_nodup us g.pairs [] List.nodup_nil
  set pairs2 := (applyReserveWrites g.pairs us).1 with hpairs2
  set touched := (applyReserveWrites g.pairs us).2 with htouched
  set g1 : ArbitrageGraph := { g with pairs := pairs2 } with hg1def
  have hg1graph : g1.graph = g.graph := rfl
  have hg1pairs : g1.pairs = pairs2 := rfl
  have hctx1g : ∀ k r, alookup g1.pairs k = some r → r.pairAddress = k := hctx1
  cases hreg : (specTrack l P).regInfo with
  | none =>
    have hgP : alookup g.pairs P = none := by rw [i1, hreg]
    have htr : trackOp P (specTrack l P) (GraphOp.update us) = specTrack l P := by
      unfold trackOp
      simp only [hreg]
    have hnot : P ∉ touched := by
      rw [htouched, hmemP]
      rintro ⟨h1, _⟩
      rw [hgP] at h1
      simp at h1
    have hview := foldl_batchEdgeStep_view_ne P touched g1 hctx1g hnot
    have hpairsF : (touched.foldl batchEdgeStep g1).pairs = pairs2 :=
      foldl_batchEdgeStep_pairs touched g1
    rw [htr]
    refine ⟨?_, fun r hr => trackConsistent_mono l _ P r (i2 r hr),
      fun q hq => trackConsistent_mono l _ P q (i3 q hq), ?_⟩
    · rw [hpairsF, hpairs2, hwr P, hgP, hreg]
    · revert i4
      cases hla : (specTrack l P).lastApplied with
      | none =>
        intro i4 t
        rw [hview t, hg1graph]
        exact i4 t
      | some q =>
        intro i4
        exact ⟨by rw [hview, hg1graph]; exact i4.1, by rw [hview, hg1graph]; exact i4.2.1,
          fun t ht0 ht1 => by rw [hview, hg1graph]; exact i4.2.2 t ht0 ht1⟩
  | some info =>
    have hgP : alookup g.pairs P = some info := by rw [i1, hreg]
    obtain ⟨hinfo_pa, hinfo_tok, a, hal, haP, ha0, ha1⟩ := i2 info hreg
    cases hlast : (us.filter (fun u => decide (u.pairAddress = P))).getLast? with
    | none =>
      have hfil : us.filter (fun u => decide (u.pairAddress = P)) = [] :=
        getLast?_none_eq_nil hlast
      have htr : trackOp P (specTrack l P) (GraphOp.update us) = specTrack l P := by
        unfold trackOp
        simp only [hreg, hlast]
      have hnot : P ∉ touched := by
        rw [htouched, hmemP]
        rintro ⟨_, u, hu, hup⟩
        have : u ∈ us.filter (fun u2 => decide (u2.pairAddress = P)) :=
          List.mem_filter.mpr ⟨hu, by simpa using hup⟩
        rw [hfil] at this
        simp at this
      have hview := foldl_batchEdgeStep_view_ne P touched g1 hctx1g hnot
      have hpairsF : (touched.foldl batchEdgeStep g1).pairs = pairs2 :=
        foldl_batchEdgeStep_pairs touched g1
      rw [htr]
      refine ⟨?_, fun r hr => trackConsistent_mono l _ P r (i2 r hr),
        fun q hq => trackConsistent_mono l _ P q (i3 q hq), ?_⟩
      · rw [hpairsF, hpairs2, hwr P, hgP, hlast, hreg]
      · revert i4
        cases hla : (specTrack l P).lastApplied with
        | none =>
          intro i4 t
          rw [hview t, hg1graph]
          exact i4 t
        | some q =>
          intro i4
          exact ⟨by rw [hview, hg1graph]; exact i4.1, by rw [hview, hg1graph]; exact i4.2.1,
            fun t ht0 ht1 => by rw [hview, hg1graph]; exact i4.2.2 t ht0 ht1⟩
    | some u =>
      set info2 : PairInfo :=
        { info with reserve0 := u.reserve0, reserve1 := u.reserve1 } with hinfo2
      have hp2 : alookup pairs2 P = some info2 := by
        rw [hpairs2, hwr P, hgP, hlast]
      have humem : u ∈ us ∧ u.pairAddress = P := by
        have hm : u ∈ us.filter (fun u2 => decide (u2.pairAddress = P)) := by
          have hopt : u ∈ (us.filter (fun u2 => decide (u2.pairAddress = P))).getLast? := by
            rw [hlast]
            rfl
          obtain ⟨hne, hu⟩ := List.mem_getLast?_eq_getLast hopt
          rw [hu]
          exact List.getLast_mem hne
        have := List.mem_filter.mp hm
        exact ⟨this.1, by simpa using this.2⟩
      have hPmem : P ∈ touched := by
        rw [htouched, hmemP]
        exact ⟨by rw [hgP]; rfl, u, humem.1, humem.2⟩
      obtain ⟨t1, t2, ht12⟩ := List.append_of_mem hPmem
      have hnd2 := hnodup
      rw [ht12] at hnd2
      have hPnotin : P ∉ t1 ∧ P ∉ t2 := by
        have hsplit := List.nodup_append.mp hnd2
        constructor
        · intro h
          exact hsplit.2.2 h (List.mem_cons_self _ _)
        · exact (List.nodup_cons.mp hsplit.2.1).1
      rw [ht12, List.foldl_append, List.foldl_cons]
      set gA := t1.foldl batchEdgeStep g1 with hgA
      have hgApairs : gA.pairs = pairs2 := foldl_batchEdgeStep_pairs t1 g1
      have hgAview := foldl_batchEdgeStep_view_ne P t1 g1 hctx1g hPnotin.1
      have hstepA : batchEdgeStep gA P = updateGraphEdges gA info2 := by
        unfold batchEdgeStep
        rw [show alookup gA.pairs P = some info2 from by rw [hgApairs]; exact hp2]
      rw [hstepA]
      have hctxA : ∀ k r, alookup (updateGraphEdges gA info2).pairs k = some r →
          r.pairAddress = k := by
        rw [updateGraphEdges_pairs, hgApairs]
        exact hctx1
      have hviewT2 := foldl_batchEdgeStep_view_ne P t2 (updateGraphEdges gA info2)
        hctxA hPnotin.2
      have hpairsF : (t2.foldl batchEdgeStep (updateGraphEdges gA info2)).pairs = pairs2 := by
        rw [foldl_batchEdgeStep_pairs, updateGraphEdges_pairs, hgApairs]
      have hcons2 : trackConsistent (l ++ [GraphOp.update us]) P info2 :=
        ⟨hinfo_pa, hinfo_tok, a, List.mem_append_left _ hal, haP, ha0, ha1⟩
      by_cases hz : u.reserve0 = 0 ∨ u.reserve1 = 0
      · have hnoop : updateGraphEdges gA info2 = gA := by
          unfold updateGraphEdges
          simp only [hinfo2]
          simp [hz]
        have htr : trackOp P (specTrack l P) (GraphOp.update us) =
            ⟨some info2, (specTrack l P).lastApplied⟩ := by
          unfold trackOp
          simp only [hreg, hlast]
          rw [if_pos hz]
        rw [htr, hnoop]
        refine ⟨?_, fun r hr => by rw [← (Option.some_inj).mp hr]; exact hcons2,
          fun q hq => trackConsistent_mono l _ P q (i3 q hq), ?_⟩
        · rw [show (t2.foldl batchEdgeStep gA).pairs = pairs2 from by
            rw [foldl_batchEdgeStep_pairs, hgApairs]]
          exact hp2
        · have hviewT2A := foldl_batchEdgeStep_view_ne P t2 gA
            (by rw [hgApairs]; exact hctx1) hPnotin.2
          simp only
          revert i4
          cases hla : (specTrack l P).lastApplied with
          | none =>
            intro i4 t
            rw [hviewT2A t, hgAview t, hg1graph]
            exact i4 t
          | some q =>
            intro i4
            exact ⟨by rw [hviewT2A, hgAview, hg1graph]; exact i4.1,
              by rw [hviewT2A, hgAview, hg1graph]; exact i4.2.1,
              fun t ht0 ht1 => by rw [hviewT2A, hgAview, hg1graph]; exact i4.2.2 t ht0 ht1⟩
      · push_neg at hz
        have hz0 : info2.reserve0 ≠ 0 := hz.1
        have hz1 : info2.reserve1 ≠ 0 := hz.2
        have htok2 : info2.token0 ≠ info2.token1 := hinfo_tok
        have htr : trackOp P (specTrack l P) (GraphOp.update us) = ⟨some info2, some info2⟩ := by
          unfold trackOp
          simp only [hreg, hlast]
          rw [if_neg (by rw [not_or]; exact ⟨hz.1, hz.2⟩)]
        rw [htr]
        have hviews : edgesWithPair ((alookup (updateGraphEdges gA info2).graph
              info2.token0).getD []) info2.pairAddress = [expectedEdge0 info2] ∧
            edgesWithPair ((alookup (updateGraphEdges gA info2).graph
              info2.token1).getD []) info2.pairAddress = [expectedEdge1 info2] ∧
            ∀ t, t ≠ info2.token0 → t ≠ info2.token1 →
              edgesWithPair ((alookup (updateGraphEdges gA info2).graph t).getD [])
                info2.pairAddress = [] := by
          revert i4
          cases hla : (specTrack l P).lastApplied with
          | none =>
            intro i4
            refine updateGraphEdges_view_fresh gA info2 hz0 hz1 htok2 ?_
            intro t
            rw [hinfo_pa, hgAview t, hg1graph]
            exact i4 t
          | some q =>
            intro i4
            obtain ⟨hqa, hqtok, aq, haq, haqP, haq0, haq1⟩ := i3 q hla
            have hsame := opsCoherent_same_tokens l hcoL aq a haq hal (by rw [haqP, haP])
            have hq0 : q.token0 = info2.token0 := by
              show q.token0 = info.token0
              rw [← haq0, hsame.1, ha0]
            have hq1 : q.token1 = info2.token1 := by
              show q.token1 = info.token1
              rw [← haq1, hsame.2, ha1]
            refine updateGraphEdges_view_update gA info2 q hz0 hz1 htok2
              (by rw [hqa, hinfo_pa]) hq0 hq1 ?_ ?_ ?_
            · rw [hinfo_pa, hgAview, hg1graph, ← hq0]
              exact i4.1
            · rw [hinfo_pa, hgAview, hg1graph, ← hq1]
              exact i4.2.1
            · intro t ht0 ht1
              rw [hinfo_pa, hgAview, hg1graph]
              exact i4.2.2 t (hq0 ▸ ht0) (hq1 ▸ ht1)
        refine ⟨?_, fun r hr => by rw [← (Option.some_inj).mp hr]; exact hcons2,
          fun q hq => by rw [← (Option.some_inj).mp hq]; exact hcons2, ?_⟩
        · rw [hpairsF]
          exact hp2
        · simp only
          refine ⟨?_, ?_, ?_⟩
          · rw [hviewT2, ← hinfo_pa]
            exact hviews.1
          · rw [hviewT2, ← hinfo_pa]
            exact hviews.2.1
          · intro t ht0 ht1
            rw [hviewT2, ← hinfo_pa]
            exact hviews.2.2 t ht0 ht1

/-- The abstraction theorem: a run of any coherent operation history is
fully described, pool by pool, by the abstract tracker. -/
theorem graph_matches_track (ops : List GraphOp) (h : opsCoherent ops = true) :
    graphMatchesTrack ops (runOps ops) := by
  induction ops using List.reverseRecOn with
  | nil =>
    intro P
    refine ⟨rfl, ?_, ?_, ?_⟩
    · intro r hr
      exact Option.noConfusion hr
    · intro q hq
      exact Option.noConfusion hq
    · exact fun t => rfl
  | append_singleton l op ih =>
    cases op with
    | add p => exact track_step_add l p h (ih (opsCoherent_of_append l _ h))
    | update us => exact track_step_update l us h (ih (opsCoherent_of_append l _ h))

/-- C10 (amended). For every coherent sequence of `addPair` and batched
reserve-update calls and every (source token, pool) pair, at most one edge
object exists in the adjacency structure, and the edges of a pool carry
exactly the fee and reserves derived from the latest record that actually
rebuilt them — the latest `addPair` or reserve update whose (final)
reserves were both nonzero; a pool never rebuilt has no edges. -/
theorem edge_unique_latest_reserves (ops : List GraphOp) (h : opsCoherent ops = true)
    (P t : String) :
    (edgesWithPair ((alookup (runOps ops).graph t).getD []) P).length ≤ 1 ∧
      (∀ q, (specTrack ops P).lastApplied = some q →
        edgesWithPair ((alookup (runOps ops).graph q.token0).getD []) P = [expectedEdge0 q] ∧
          edgesWithPair ((alookup (runOps ops).graph q.token1).getD []) P = [expectedEdge1 q]) ∧
      ((specTrack ops P).lastApplied = none →
        edgesWithPair ((alookup (runOps ops).graph t).getD []) P = []) := by
  obtain ⟨_, _, _, i4⟩ := graph_matches_track ops h P
  revert i4
  cases hla : (specTrack ops P).lastApplied with
  | none =>
    intro i4
    refine ⟨by rw [i4 t]; simp, ?_, fun _ => i4 t⟩
    intro q hq
    exact Option.noConfusion hq
  | some q =>
    intro i4
    refine ⟨?_, ?_, ?_⟩
    · by_cases ht0 : t = q.token0
      · rw [ht0, i4.1]
        simp
      · by_cases ht1 : t = q.token1
        · rw [ht1, i4.2.1]
          simp
        · rw [i4.2.2 t ht0 ht1]
          simp
    · intro q2 hq2
      rw [Option.some_inj] at hq2
      rw [← hq2]
      exact ⟨i4.1, i4.2.1⟩
    · intro hnone
      exact Option.noConfusion hnone

/-- Witness for C10: the add-then-update history `ops10` is coherent, and
the theorem instantiates at its pool `0xW` and token `0xA`. -/
theorem edge_unique_latest_reserves_witness :
    opsCoherent ops10 = true ∧
      ((edgesWithPair ((alookup (runOps ops10).graph "0xA").getD []) "0xW").length ≤ 1 ∧
        (∀ q, (specTrack ops10 "0xW").lastApplied = some q →
          edgesWithPair ((alookup (runOps ops10).graph q.token0).getD []) "0xW" =
              [expectedEdge0 q] ∧
            edgesWithPair ((alookup (runOps ops10).graph q.token1).getD []) "0xW" =
              [expectedEdge1 q]) ∧
        ((specTrack ops10 "0xW").lastApplied = none →
          edgesWithPair ((alookup (runOps ops10).graph "0xA").getD []) "0xW" = [])) :=
  ⟨by decide, edge_unique_latest_reserves ops10 (by decide) "0xW" "0xA"⟩

/-- C10 (counterexample). The claim as stated fails: after registering the
pool `0xP` with reserves `(1, 2)` and then supplying the reserve update
`(0, 5)`, the edge out of `0xA` still carries `reserveIn = 1` — not the
latest supplied reserve `0` — because a zero-reserve update skips the edge
rebuild. -/
theorem edge_not_latest_after_zero_update_cex :
    (findEdge ((alookup (runOps opsC1).graph "0xA").getD []) "0xP").map Edge.reserveIn =
        some 1 ∧
      (alookup (runOps opsC1).pairs "0xP").map PairInfo.reserve0 = some 0 := by
  refine ⟨by decide, by decide⟩

end ArbitrageV
